import Mathlib

/-!
Shallow embedding of the LeteragoBackend category/technique core:
the category model hooks (slug generation, parent-cycle validation,
full-path walk, hierarchy assembly), the category controller
(create/update/delete) and the technique model/controller
(create with upload cleanup, update with revision history, duplicate).
Stores are lists of records; Mongo `findById` is list lookup by id.
-/

namespace Leterago

inductive Role where
  | viewer
  | editor
  | admin
deriving Repr, DecidableEq

structure UserM where
  id : Nat
  role : Role
deriving Repr, DecidableEq

structure Metadata where
  tactics : List String
  platforms : List String
  killChainPhases : List String
deriving Repr, DecidableEq

structure Cat where
  id : Nat
  name : String
  slug : String
  description : String
  color : String
  icon : String
  parentCategory : Option Nat
  order : Int
  isActive : Bool
  metadata : Metadata
  createdBy : Nat
deriving Repr, DecidableEq

/-- Mongo `Category.findById`: first record whose id matches. -/
def findById (s : List Cat) (i : Nat) : Option Cat :=
  s.find? (fun c => c.id == i)

def ids (s : List Cat) : List Nat := s.map (fun c => c.id)

/-- Possible outcomes of the `validateParent` walk: the real loop either
completes (`ok`) or throws on a revisit (`circular`); `fuelOut` marks the
fuel bound of the embedding and is proved unreachable below. -/
inductive WalkRes where
  | ok
  | circular
  | fuelOut
deriving Repr, DecidableEq

/-- The `while (current)` loop of `categorySchema.methods.validateParent`:
walk up the parent chain, failing on any id already visited. -/
def validateWalk (s : List Cat) : Option Cat → List Nat → Nat → WalkRes
  | none, _, _ => .ok
  | some _, _, 0 => .fuelOut
  | some cur, visited, fuel + 1 =>
    if cur.id ∈ visited then .circular
    else validateWalk s (cur.parentCategory.bind (findById s)) (cur.id :: visited) fuel

/-- `categorySchema.methods.validateParent`: visited starts at the id of the
document being saved; the walk starts from the proposed parent. -/
def validateParent (s : List Cat) (c : Cat) : WalkRes :=
  match c.parentCategory with
  | none => .ok
  | some p => validateWalk s (findById s p) [c.id] (s.length + 1)

/-- JavaScript whitespace for `String.prototype.trim` (the characters that
occur in this code base). -/
def isJsSpace (c : Char) : Bool :=
  c == ' ' || c == '\t' || c == '\n' || c == '\r'

/-- `.trim()` of the controllers. -/
def jsTrim (nm : String) : String :=
  String.mk (((nm.toList.dropWhile isJsSpace).reverse.dropWhile isJsSpace).reverse)

/-- ASCII lower-casing of one character, as `.toLowerCase()` acts on the
names in scope. -/
def lowerChar (c : Char) : Char :=
  if ('A' ≤ c) && (c ≤ 'Z') then Char.ofNat (c.toNat + 32) else c

/-- `.toLowerCase()`. -/
def jsToLower (nm : String) : String :=
  String.mk (nm.toList.map lowerChar)

/-- Characters kept by the slug regex `[^a-z0-9]+` (applied after
lower-casing). -/
def isSlugChar (c : Char) : Bool :=
  (('a' ≤ c) && (c ≤ 'z')) || (('0' ≤ c) && (c ≤ '9'))

/-- Replace each run of non-alphanumeric characters with a single dash,
mirroring `.replace(/[^a-z0-9]+/g, '-')`. The flag records whether we are
inside such a run. -/
def collapseGo : Bool → List Char → List Char
  | _, [] => []
  | inRun, c :: rest =>
    if isSlugChar c then c :: collapseGo false rest
    else if inRun then collapseGo true rest
    else '-' :: collapseGo true rest

/-- `.replace(/(^-|-$)+/g, '')` on the collapsed string: drop leading and
trailing dashes. -/
def trimDashes (l : List Char) : List Char :=
  ((l.dropWhile (fun c => c == '-')).reverse.dropWhile (fun c => c == '-')).reverse

/-- The base slug computed in the pre-save hook from the (already trimmed)
category name. -/
def slugify (name : String) : String :=
  String.mk (trimDashes (collapseGo false (jsToLower name).toList))

/-- `findOne({slug, _id: {$ne: this._id}})` as a boolean test. -/
def slugTaken (s : List Cat) (selfId : Nat) (sl : String) : Bool :=
  s.any (fun c => c.slug == sl && c.id != selfId)

/-- The uniqueness-probing loop: try `base`, then `base-1`, `base-2`, ...
until a slug no other category uses is found. Fuel bounds the loop; with
fuel `s.length + 1` the loop is shown to stop at an available slug when
the relevant candidates are free (see the C4 theorem). -/
def probeGo (s : List Cat) (selfId : Nat) (base : String) : String → Nat → Nat → String
  | sl, _, 0 => sl
  | sl, counter, fuel + 1 =>
    if slugTaken s selfId sl then
      probeGo s selfId base (base ++ "-" ++ toString counter) (counter + 1) fuel
    else sl

/-- Slug generation of the `categorySchema.pre('save')` hook. -/
def genSlug (s : List Cat) (selfId : Nat) (base : String) : String :=
  probeGo s selfId base base 1 (s.length + 1)

/-! ## Technique model (`models/Technique.js`, ISO27001 variant) -/

inductive Status where
  | Draft
  | Review
  | Approved
  | Deprecated
deriving Repr, DecidableEq

structure DataSource where
  name : String
  description : String
deriving Repr, DecidableEq

structure Mitigation where
  description : String
  techniques : List String
deriving Repr, DecidableEq

structure DetectionQuery where
  platform : String
  query : String
  description : String
deriving Repr, DecidableEq

structure Detection where
  description : String
  queries : List DetectionQuery
deriving Repr, DecidableEq

structure Reference where
  name : String
  url : String
  description : String
deriving Repr, DecidableEq

structure KillChainPhase where
  killChainName : String
  phaseName : String
deriving Repr, DecidableEq

structure Revision where
  version : String
  changes : String
  changedBy : Nat
deriving Repr, DecidableEq

structure Tech where
  id : Nat
  name : String
  mitreid : Option String
  description : String
  category : Option Nat
  fileLocation : Option String
  image : Option String
  tags : List String
  platforms : List String
  datasources : List DataSource
  mitigation : Mitigation
  detection : Detection
  references : List Reference
  tactics : List String
  killChainPhases : List KillChainPhase
  revisionHistory : List Revision
  isActive : Bool
  version : String
  iso27001Reference : Option String
  riskLevel : String
  status : Status
  createdBy : Nat
  lastModifiedBy : Option Nat
deriving Repr, DecidableEq

def findTechById (ts : List Tech) (i : Nat) : Option Tech :=
  ts.find? (fun t => t.id == i)

/-- `.split('.')` on the version string, done over the character list. -/
def splitOnDotAux : List Char → List Char → List String
  | [], acc => [String.mk acc.reverse]
  | c :: rest, acc =>
    if c == '.' then String.mk acc.reverse :: splitOnDotAux rest []
    else splitOnDotAux rest (c :: acc)

def splitOnDot (v : String) : List String :=
  splitOnDotAux v.toList []

def parseDigitsAux : List Char → Nat → Option Nat
  | [], acc => some acc
  | c :: rest, acc =>
    if ('0' ≤ c) && (c ≤ '9') then parseDigitsAux rest (acc * 10 + (c.toNat - 48))
    else none

/-- One dotted component through JavaScript `Number(...)`; the components in
scope are decimal numerals, and the empty component maps to 0 as in JS. -/
def parsePart (str : String) : Nat :=
  (parseDigitsAux str.toList 0).getD 0

def parseParts (v : String) : List Nat :=
  (splitOnDot v).map parsePart

/-- The version bump of `addRevision`: pad to two components with 0, then
increment the second (minor) component. -/
def bumpParts (parts : List Nat) : List Nat :=
  let padded := if parts.length < 2 then parts ++ [0] else parts
  match padded with
  | a :: b :: rest => a :: (b + 1) :: rest
  | other => other

/-- `techniqueSchema.methods.addRevision`: compute a new dotted version and
append one revision entry. -/
def addRevision (t : Tech) (changes : String) (userId : Nat) : Tech :=
  let v := if t.version = "" then "1.0" else t.version
  let newVersion := String.intercalate "." ((bumpParts (parseParts v)).map toString)
  let entry : Revision :=
    { version := newVersion
      changes := if changes = "" then "Cambios no especificados" else changes
      changedBy := userId }
  { t with
    revisionHistory := t.revisionHistory ++ [entry]
    version := newVersion
    lastModifiedBy := some userId }

/-- `techniqueSchema.methods.duplicate`: the copy keeps the content fields,
drops mitreid and the attachment paths, starts with an empty revision
history at schema defaults, and is created by the acting user. -/
def duplicate (t : Tech) (freshId : Nat) (userId : Nat) : Tech :=
  { id := freshId
    name := t.name ++ " (Copia)"
    mitreid := none
    description := t.description
    category := t.category
    fileLocation := none
    image := none
    tags := t.tags
    platforms := t.platforms
    datasources := t.datasources
    mitigation := t.mitigation
    detection := t.detection
    references := t.references
    tactics := t.tactics
    killChainPhases := t.killChainPhases
    revisionHistory := []
    isActive := true
    version := "1.0"
    iso27001Reference := t.iso27001Reference
    riskLevel := t.riskLevel
    status := .Draft
    createdBy := userId
    lastModifiedBy := none }

/-! ## Category controller (`controllers/categoryController.js`) -/

inductive CatErr where
  | missingFields
  | parentNotFound
  | circular
  | notFound
  | permission
deriving Repr, DecidableEq

structure CatBody where
  name : String
  description : String
  color : Option String
  icon : Option String
  parentCategory : Option Nat
  order : Option Int
  metadata : Option Metadata
deriving Repr, DecidableEq

structure MetaPatch where
  tactics : Option (List String)
  platforms : Option (List String)
  killChainPhases : Option (List String)
deriving Repr, DecidableEq

/-- JavaScript `{ ...category.metadata, ...metadata }`: keys present in the
patch override the stored ones. -/
def mergeMeta (m : Metadata) (p : MetaPatch) : Metadata :=
  { tactics := p.tactics.getD m.tactics
    platforms := p.platforms.getD m.platforms
    killChainPhases := p.killChainPhases.getD m.killChainPhases }

/-- The update request body: `none` is an absent key; for `parentCategory`,
`some none` is an explicit null or empty string (clear the parent). -/
structure CatPatch where
  name : Option String
  description : Option String
  color : Option String
  icon : Option String
  order : Option Int
  metadata : Option MetaPatch
  parentCategory : Option (Option Nat)
  isActive : Option Bool
deriving Repr, DecidableEq

/-- `category.save()` for a new document: the name is set, so the slug hook
runs; the parent hook throws `CircularReferenceError` when the walk fails. -/
def saveNewCat (s : List Cat) (c : Cat) : Except CatErr (Cat × List Cat) :=
  let c1 := { c with slug := genSlug s c.id (slugify c.name) }
  match validateParent s c1 with
  | .ok => .ok (c1, c1 :: s)
  | _ => .error .circular

/-- The document built by `new Category(categoryData)` in `createCategory`;
`freshId` stands for the generated ObjectId. -/
def buildCat (actor : UserM) (freshId : Nat) (b : CatBody) : Cat :=
  { id := freshId
    name := jsTrim b.name
    slug := ""
    description := jsTrim b.description
    color := b.color.getD "#3498db"
    icon := b.icon.getD "folder"
    parentCategory := b.parentCategory
    order := b.order.getD 0
    isActive := true
    metadata := b.metadata.getD ⟨[], [], []⟩
    createdBy := actor.id }

/-- `createCategory`: required-field check, parent existence check, then
save with the pre-save hooks. -/
def createCategoryOp (s : List Cat) (actor : UserM) (freshId : Nat) (b : CatBody) :
    Except CatErr (Cat × List Cat) :=
  if b.name = "" ∨ b.description = "" then .error .missingFields
  else
    match b.parentCategory with
    | some p =>
      if (findById s p).isNone then .error .parentNotFound
      else saveNewCat s (buildCat actor freshId b)
    | none => saveNewCat s (buildCat actor freshId b)

/-- Persisting an updated document: replace the record with that id. -/
def updateStore (s : List Cat) (c : Cat) : List Cat :=
  s.map (fun d => if d.id = c.id then c else d)

/-- The parent-validation hook of `category.save()` on an existing
document: it fires only when the parent was modified. -/
def saveCatCore (s : List Cat) (old c2 : Cat) : Except CatErr (Cat × List Cat) :=
  if c2.parentCategory ≠ old.parentCategory then
    match validateParent s c2 with
    | .ok => .ok (c2, updateStore s c2)
    | _ => .error .circular
  else .ok (c2, updateStore s c2)

/-- `category.save()` for an existing document `old` now holding the values
of `c1`: the slug hook fires only when the name was modified, then the
parent hook runs. -/
def saveUpdatedCat (s : List Cat) (old c1 : Cat) : Except CatErr (Cat × List Cat) :=
  saveCatCore s old
    (if c1.name ≠ old.name then { c1 with slug := genSlug s c1.id (slugify c1.name) } else c1)

/-- The field assignments of `updateCategory` on the fetched document:
every provided field is applied (names and descriptions trimmed, metadata
spread-merged); `isActive` is applied only for an admin actor. -/
def patchCat (actor : UserM) (c : Cat) (p : CatPatch) : Cat :=
  { c with
    name := (p.name.map jsTrim).getD c.name
    description := (p.description.map jsTrim).getD c.description
    color := p.color.getD c.color
    icon := p.icon.getD c.icon
    order := p.order.getD c.order
    metadata := match p.metadata with
      | some mp => mergeMeta c.metadata mp
      | none => c.metadata
    isActive := if actor.role = Role.admin then p.isActive.getD c.isActive else c.isActive }

/-- `updateCategory`: lookup, owner-or-admin permission, field patching with
the admin-only `isActive` rule, parent existence check, then save. -/
def updateCategoryOp (s : List Cat) (actor : UserM) (cid : Nat) (p : CatPatch) :
    Except CatErr (Cat × List Cat) :=
  match findById s cid with
  | none => .error .notFound
  | some c =>
    if actor.role ≠ Role.admin ∧ c.createdBy ≠ actor.id then .error .permission
    else
      match p.parentCategory with
      | none => saveUpdatedCat s c (patchCat actor c p)
      | some none => saveUpdatedCat s c { patchCat actor c p with parentCategory := none }
      | some (some pid) =>
        if (findById s pid).isNone then .error .parentNotFound
        else saveUpdatedCat s c { patchCat actor c p with parentCategory := some pid }

inductive DelErr where
  | notFound
  | permission
  | dependencySubcategories (n : Nat)
  | dependencyTechniques (n : Nat)
deriving Repr, DecidableEq

/-- Result of a delete request: the error (if any) and the state after the
request; the controller performs no write before any error return. -/
structure DelOutcome where
  error : Option DelErr
  categories : List Cat
  techniques : List Tech
deriving Repr, DecidableEq

/-- `deleteCategory`: lookup, admin-only, dependency counts (subcategories
first, then techniques), and only then `findByIdAndDelete`. -/
def deleteCategoryOp (s : List Cat) (techs : List Tech) (actor : UserM) (cid : Nat) :
    DelOutcome :=
  match findById s cid with
  | none => ⟨some .notFound, s, techs⟩
  | some _ =>
    if actor.role ≠ Role.admin then ⟨some .permission, s, techs⟩
    else
      let subcats := (s.filter (fun d => d.parentCategory == some cid)).length
      let tCount := (techs.filter (fun t => t.category == some cid)).length
      if subcats > 0 then ⟨some (.dependencySubcategories subcats), s, techs⟩
      else if tCount > 0 then ⟨some (.dependencyTechniques tCount), s, techs⟩
      else ⟨none, s.filter (fun d => d.id != cid), techs⟩

/-! ## Hierarchy and full path (`models/Category.js`) -/

/-- Sibling ordering of `.sort({ order: 1, name: 1 })`. -/
def catLE (a b : Cat) : Bool :=
  (a.order < b.order) || (a.order == b.order && a.name ≤ b.name)

/-- The `find({ isActive: true }).sort({ order: 1, name: 1 })` query feeding
`getHierarchy`. -/
def hierActives (s : List Cat) : List Cat :=
  (s.filter (fun c => c.isActive)).mergeSort catLE

def activeIds (s : List Cat) : List Nat :=
  (hierActives s).map (fun c => c.id)

/-- Roots of the assembled hierarchy: active categories with no parent. -/
def hierRoots (s : List Cat) : List Nat :=
  ((hierActives s).filter (fun c => c.parentCategory == none)).map (fun c => c.id)

/-- The children list attached to the map node of an active category `p`:
active categories whose parent reference equals `p`. A category whose
parent is not a key of the map is pushed nowhere. -/
def hierChildren (s : List Cat) (p : Nat) : List Nat :=
  ((hierActives s).filter (fun c => c.parentCategory == some p)).map (fun c => c.id)

/-- Membership anywhere in the forest returned by `getHierarchy`. -/
def appearsInHierarchy (s : List Cat) (x : Nat) : Prop :=
  x ∈ hierRoots s ∨ ∃ p ∈ activeIds s, x ∈ hierChildren s p

/-- The `while (current.parentCategory)` loop of `getFullPath`, with fuel
counting loop iterations; `none` means the fuel ran out, i.e. the loop has
not finished within that many iterations. The source tracks no visited
set. -/
def getFullPathGo (s : List Cat) : Cat → List String → Nat → Option (List String)
  | cur, path, fuel =>
    match cur.parentCategory with
    | none => some path
    | some p =>
      match fuel with
      | 0 => none
      | fuel + 1 =>
        match findById s p with
        | none => some path
        | some next => getFullPathGo s next (next.name :: path) fuel

/-- `categorySchema.methods.getFullPath`, up to `fuel` loop iterations. -/
def getFullPath (s : List Cat) (c : Cat) (fuel : Nat) : Option String :=
  (getFullPathGo s c [c.name] fuel).map (fun path => String.intercalate " > " path)

/-- Termination of the unbounded source loop: some iteration count
completes it. -/
def GetFullPathTerminates (s : List Cat) (c : Cat) : Prop :=
  ∃ fuel, (getFullPathGo s c [c.name] fuel).isSome

/-! ## Technique controller (`controllers/techniqueController.js`) -/

inductive CreateErr where
  | missingFields
  | categoryNotFound
  | duplicateMitreid
deriving Repr, DecidableEq

/-- The create request body; an absent or empty `name`/`description` is the
falsy case of `if (!name || !description || !category)`, absent optional
fields are `none`, array fields default to `[]` as in the controller. -/
structure TechBody where
  name : String
  description : String
  category : Option Nat
  mitreid : Option String
  tags : List String
  platforms : List String
  datasources : List DataSource
  mitigation : Mitigation
  detection : Detection
  references : List Reference
  tactics : List String
  killChainPhases : List KillChainPhase
deriving Repr, DecidableEq

/-- Stored paths of the multipart upload (`req.processedFiles`). -/
structure Uploads where
  image : Option String
  document : Option String
deriving Repr, DecidableEq

/-- `if (mitreid) { findOne({ mitreid }) ... }`: an empty string is falsy,
so it skips the check; otherwise any technique with that mitreid counts. -/
def mitreDup (techs : List Tech) (mid : Option String) : Bool :=
  match mid with
  | some m => (m != "") && techs.any (fun t => t.mitreid == some m)
  | none => false

def buildTechnique (b : TechBody) (files : Uploads) (freshId : Nat) (actor : UserM) : Tech :=
  { id := freshId
    name := jsTrim b.name
    mitreid := b.mitreid
    description := jsTrim b.description
    category := b.category
    fileLocation := files.document
    image := files.image
    tags := b.tags
    platforms := b.platforms
    datasources := b.datasources
    mitigation := b.mitigation
    detection := b.detection
    references := b.references
    tactics := b.tactics
    killChainPhases := b.killChainPhases
    revisionHistory := []
    isActive := true
    version := "1.0"
    iso27001Reference := none
    riskLevel := "Medium"
    status := .Draft
    createdBy := actor.id
    lastModifiedBy := none }

/-- `createTechnique`: the controller requires name, description AND
category, then checks the category exists and the mitreid is unused. -/
def createTechnique (cats : List Cat) (techs : List Tech) (b : TechBody) (files : Uploads)
    (freshId : Nat) (actor : UserM) : Except CreateErr Tech :=
  if b.name = "" ∨ b.description = "" ∨ b.category = none then .error .missingFields
  else
    match b.category with
    | none => .error .missingFields
    | some cid =>
      if (findById cats cid).isNone then .error .categoryNotFound
      else if mitreDup techs b.mitreid then .error .duplicateMitreid
      else .ok (buildTechnique b files freshId actor)

/-- Observable outcome of a POST /techniques request: the error (if any),
the technique store, and the set of stored blob paths. -/
structure TechCreateOutcome where
  error : Option CreateErr
  techs : List Tech
  blobs : List String
deriving Repr, DecidableEq

/-- The POST /techniques pipeline: multer writes the uploads, the
controller runs, and on any response with status >= 400 the
`cleanupOnError` middleware unlinks every uploaded file of the request. -/
def createTechniqueRequest (cats : List Cat) (techs : List Tech) (blobs : List String)
    (b : TechBody) (uploadedImage uploadedDoc : Option String) (freshId : Nat)
    (actor : UserM) : TechCreateOutcome :=
  let uploads : List String := uploadedImage.toList ++ uploadedDoc.toList
  let blobs1 := blobs ++ uploads
  match createTechnique cats techs b ⟨uploadedImage, uploadedDoc⟩ freshId actor with
  | .error e => ⟨some e, techs, blobs1.filter (fun x => !(uploads.contains x))⟩
  | .ok t => ⟨none, techs ++ [t], blobs1⟩

inductive UpdTechErr where
  | notFound
  | permission
  | categoryNotFound
  | duplicateMitreid
  | internal
deriving Repr, DecidableEq

/-- The update request body (`none` is an absent key). `image` and
`fileLocation` are the keys merged in from `req.processedFiles`. -/
structure TechPatch where
  name : Option String
  description : Option String
  mitreid : Option String
  category : Option Nat
  image : Option String
  fileLocation : Option String
deriving Repr, DecidableEq

def showOptNat : Option Nat → String
  | some n => toString n
  | none => "null"

def showOptStr : Option String → String
  | some v => v
  | none => "undefined"

/-- The diff loop over `Object.keys(updateData)`: one `field: old → new`
entry per present key whose value differs. For `category` the JS strict
comparison is between an ObjectId and a string, hence always a change. -/
def patchChanges (t : Tech) (p : TechPatch) : List String :=
  (match p.name with
    | some v => if t.name ≠ v then ["name: " ++ t.name ++ " → " ++ v] else []
    | none => []) ++
  (match p.description with
    | some v =>
      if t.description ≠ v then ["description: " ++ t.description ++ " → " ++ v] else []
    | none => []) ++
  (match p.mitreid with
    | some v =>
      if t.mitreid ≠ some v then ["mitreid: " ++ showOptStr t.mitreid ++ " → " ++ v] else []
    | none => []) ++
  (match p.category with
    | some v => ["category: " ++ showOptNat t.category ++ " → " ++ toString v]
    | none => []) ++
  (match p.image with
    | some v => if t.image ≠ some v then ["image: " ++ showOptStr t.image ++ " → " ++ v] else []
    | none => []) ++
  (match p.fileLocation with
    | some v =>
      if t.fileLocation ≠ some v then
        ["fileLocation: " ++ showOptStr t.fileLocation ++ " → " ++ v]
      else []
    | none => [])

/-- `Object.assign(technique, updateData)`. -/
def applyTechPatch (t : Tech) (p : TechPatch) : Tech :=
  { t with
    name := p.name.getD t.name
    description := p.description.getD t.description
    mitreid := match p.mitreid with
      | some v => some v
      | none => t.mitreid
    category := match p.category with
      | some v => some v
      | none => t.category
    image := match p.image with
      | some v => some v
      | none => t.image
    fileLocation := match p.fileLocation with
      | some v => some v
      | none => t.fileLocation }

def updateTechStore (ts : List Tech) (t : Tech) : List Tech :=
  ts.map (fun d => if d.id = t.id then t else d)

/-- `if (updateData.mitreid && updateData.mitreid !== technique.mitreid)`
followed by `findOne({ mitreid, _id: { $ne: id } })`. -/
def mitreDupOnUpdate (techs : List Tech) (t : Tech) (mid : Option String) : Bool :=
  match mid with
  | some m =>
    (m != "") && (some m != t.mitreid) &&
      techs.any (fun d => d.mitreid == some m && d.id != t.id)
  | none => false

/-- The tail of `updateTechnique` after the category check: mitreid
re-validation, diff, assign, optional revision, save. -/
def updateTechniqueBody (techs : List Tech) (actor : UserM) (t : Tech)
    (p : TechPatch) : Except UpdTechErr (Tech × List Tech) :=
  if mitreDupOnUpdate techs t p.mitreid then .error .duplicateMitreid
  else
    let changes := patchChanges t p
    let t1 := { applyTechPatch t p with lastModifiedBy := some actor.id }
    let t2 := if changes ≠ [] then addRevision t1 (String.intercalate "; " changes) actor.id else t1
    .ok (t2, updateTechStore techs t2)

/-- `updateTechnique`: lookup, creator-or-admin permission, category
re-validation, then the body above. The `internal` branch mirrors the
`technique.category.toString()` crash when the stored category is null and
the patch supplies one. -/
def updateTechnique (cats : List Cat) (techs : List Tech) (actor : UserM) (tid : Nat)
    (p : TechPatch) : Except UpdTechErr (Tech × List Tech) :=
  match findTechById techs tid with
  | none => .error .notFound
  | some t =>
    if actor.role ≠ Role.admin ∧ t.createdBy ≠ actor.id then .error .permission
    else
      match p.category, t.category with
      | some _, none => .error .internal
      | some cid, some old =>
        if cid ≠ old ∧ (findById cats cid).isNone then .error .categoryNotFound
        else updateTechniqueBody techs actor t p
      | none, _ => updateTechniqueBody techs actor t p

/-! ## The parent relation, acyclicity, and the mutation step relation -/

/-- One hop of the parent relation: the record stored under `x` names `y`
as its parent. -/
def stepId (s : List Cat) (x y : Nat) : Prop :=
  ∃ c, findById s x = some c ∧ c.parentCategory = some y

/-- The same hop as a function (lookup is deterministic). -/
def stepFn (s : List Cat) (x : Nat) : Option Nat :=
  (findById s x).bind (fun c => c.parentCategory)

/-- A chain of `n` parent hops recorded as a function on indices. -/
def ChainN (s : List Cat) (g : Nat → Nat) (n : Nat) : Prop :=
  ∀ i < n, stepId s (g i) (g (i + 1))

/-- No id is its own strict ancestor. -/
def Acyclic (s : List Cat) : Prop :=
  ∀ x, ¬ Relation.TransGen (stepId s) x x

/-- Does the parent chain starting at this point reach a root or a dangling
reference within `n` hops? -/
def chainEnds (s : List Cat) : Option Nat → Nat → Bool
  | none, _ => true
  | some _, 0 => false
  | some x, n + 1 => chainEnds s (stepFn s x) n

/-- Executable acyclicity: from every stored category the parent chain ends
within `s.length + 1` hops. -/
def AcyclicB (s : List Cat) : Bool :=
  s.all (fun c => chainEnds s (some c.id) (s.length + 1))

/-- Executable referential closedness: every parent reference names a
stored id. -/
def ClosedB (s : List Cat) : Bool :=
  s.all (fun c => match c.parentCategory with
    | none => true
    | some p => decide (p ∈ ids s))

def Closed (s : List Cat) : Prop :=
  ∀ c ∈ s, ∀ p, c.parentCategory = some p → p ∈ ids s

/-- The store invariant maintained by the category controller. -/
def Inv (s : List Cat) : Prop :=
  ClosedB s = true ∧ AcyclicB s = true

/-- One successful mutation of the category store through the controller:
a create (with a fresh id) or an update. Failed requests leave the store
untouched and therefore need no step. -/
inductive CatStep : List Cat → List Cat → Prop where
  | create (s : List Cat) (actor : UserM) (fid : Nat) (b : CatBody) (c : Cat) (s' : List Cat) :
      findById s fid = none →
      createCategoryOp s actor fid b = .ok (c, s') →
      CatStep s s'
  | update (s : List Cat) (actor : UserM) (cid : Nat) (p : CatPatch) (c : Cat) (s' : List Cat) :
      updateCategoryOp s actor cid p = .ok (c, s') →
      CatStep s s'

/-- A patch that only reassigns the parent. -/
def parentPatch (p : Nat) : CatPatch :=
  ⟨none, none, none, none, none, none, some (some p), none⟩

/-! ## Lookup and step lemmas -/

theorem findById_id_eq {s : List Cat} {x : Nat} {c : Cat} (h : findById s x = some c) :
    c.id = x := by
  have := List.find?_some h
  simpa using this

theorem findById_mem {s : List Cat} {x : Nat} {c : Cat} (h : findById s x = some c) :
    c ∈ s :=
  List.mem_of_find?_eq_some h

theorem exists_findById_of_mem_ids {s : List Cat} {p : Nat} (h : p ∈ ids s) :
    ∃ c, findById s p = some c := by
  cases hf : findById s p with
  | some c => exact ⟨c, rfl⟩
  | none =>
    exfalso
    rw [findById, List.find?_eq_none] at hf
    obtain ⟨c, hc, hid⟩ := List.mem_map.mp h
    exact hf c hc (by simp [hid])

theorem mem_ids_of_findById {s : List Cat} {x : Nat} {c : Cat} (h : findById s x = some c) :
    x ∈ ids s :=
  List.mem_map.mpr ⟨c, findById_mem h, findById_id_eq h⟩

theorem stepFn_eq_some {s : List Cat} {x y : Nat} :
    stepFn s x = some y ↔ stepId s x y := by
  simp [stepFn, stepId, Option.bind_eq_some]

theorem mem_ids_of_stepId {s : List Cat} {x y : Nat} (h : stepId s x y) : x ∈ ids s := by
  obtain ⟨c, hc, _⟩ := h
  exact mem_ids_of_findById hc

theorem closedB_iff {s : List Cat} : ClosedB s = true ↔ Closed s := by
  simp only [ClosedB, List.all_eq_true, Closed]
  constructor
  · intro h c hc p hp
    have := h c hc
    rw [hp] at this
    simpa using this
  · intro h c hc
    cases hpc : c.parentCategory with
    | none => simp
    | some p => simpa using h c hc p hpc

/-! ## Chains, acyclicity and its executable check -/

theorem chain_of_reflTransGen {s : List Cat} {a b : Nat}
    (h : Relation.ReflTransGen (stepId s) a b) :
    ∃ n g, ChainN s g n ∧ g 0 = a ∧ g n = b := by
  induction h with
  | refl => exact ⟨0, fun _ => a, fun i hi => absurd hi (Nat.not_lt_zero i), rfl, rfl⟩
  | @tail m z _ hstep ih =>
    obtain ⟨n, g, hchain, hg0, hgn⟩ := ih
    refine ⟨n + 1, fun i => if i ≤ n then g i else z, ?_, ?_, ?_⟩
    · intro i hi
      rcases Nat.lt_succ_iff_lt_or_eq.mp hi with hlt | heq
      · have h1 : i ≤ n := Nat.le_of_lt hlt
        have h2 : i + 1 ≤ n := Nat.succ_le_of_lt hlt
        simpa [h1, h2] using hchain i hlt
      · subst heq
        have h1 : i ≤ i := Nat.le_refl i
        have h2 : ¬ (i + 1 ≤ i) := Nat.not_succ_le_self i
        simpa [h1, h2, hgn] using hstep
    · simp [Nat.zero_le n, hg0]
    · simp [Nat.not_succ_le_self n]

theorem transGen_of_chain {s : List Cat} {g : Nat → Nat} :
    ∀ n, 0 < n → ChainN s g n → Relation.TransGen (stepId s) (g 0) (g n) := by
  intro n
  induction n with
  | zero => intro h; exact absurd h (Nat.lt_irrefl 0)
  | succ n ih =>
    intro _ hchain
    rcases Nat.eq_zero_or_pos n with h0 | hpos
    · subst h0
      exact Relation.TransGen.single (hchain 0 Nat.one_pos)
    · exact Relation.TransGen.tail
        (ih hpos (fun i hi => hchain i (Nat.lt_succ_of_lt hi)))
        (hchain n (Nat.lt_succ_self n))

theorem transGen_of_chain_segment {s : List Cat} {g : Nat → Nat} {n : Nat}
    (hchain : ChainN s g n) {i j : Nat} (hij : i < j) (hjn : j ≤ n) :
    Relation.TransGen (stepId s) (g i) (g j) := by
  have hsub : ChainN s (fun k => g (i + k)) (j - i) := by
    intro k hk
    have hik : i + k < n := by omega
    have harr : i + (k + 1) = (i + k) + 1 := by omega
    show stepId s (g (i + k)) (g (i + (k + 1)))
    rw [harr]
    exact hchain (i + k) hik
  have := transGen_of_chain (j - i) (by omega) hsub
  have hcanc : i + (j - i) = j := by omega
  simpa [hcanc] using this

theorem chainEnds_step {s : List Cat} {x : Nat} {n : Nat} :
    chainEnds s (some x) (n + 1) = chainEnds s (stepFn s x) n := rfl

theorem chain_of_not_chainEnds {s : List Cat} :
    ∀ (n : Nat) (x : Nat), chainEnds s (some x) n = false →
      ∃ g, ChainN s g n ∧ g 0 = x := by
  intro n
  induction n with
  | zero =>
    intro x _
    exact ⟨fun _ => x, fun i hi => absurd hi (Nat.not_lt_zero i), rfl⟩
  | succ n ih =>
    intro x h
    rw [chainEnds_step] at h
    cases hstep : stepFn s x with
    | none => rw [hstep] at h; simp [chainEnds] at h
    | some y =>
      rw [hstep] at h
      obtain ⟨g, hchain, hg0⟩ := ih y h
      refine ⟨fun i => match i with | 0 => x | j + 1 => g j, ?_, rfl⟩
      intro i hi
      cases i with
      | zero =>
        show stepId s x (g 0)
        rw [hg0]
        exact stepFn_eq_some.mp hstep
      | succ j =>
        exact hchain j (Nat.lt_of_succ_lt_succ hi)

theorem chainEnds_of_acyclic {s : List Cat} (hA : Acyclic s) (x : Nat) :
    chainEnds s (some x) (s.length + 1) = true := by
  by_contra h
  have h' : chainEnds s (some x) (s.length + 1) = false := by
    cases hc : chainEnds s (some x) (s.length + 1) with
    | true => exact absurd hc h
    | false => rfl
  obtain ⟨g, hchain, _⟩ := chain_of_not_chainEnds (s.length + 1) x h'
  have hmem : ∀ i ≤ s.length, g i ∈ ids s := by
    intro i hi
    exact mem_ids_of_stepId (hchain i (by omega))
  have hinj : ∀ i ≤ s.length, ∀ j ≤ s.length, g i = g j → i = j := by
    intro i hi j hj heq
    by_contra hne
    rcases Nat.lt_or_ge i j with hij | hij
    · have := transGen_of_chain_segment hchain hij (by omega)
      rw [heq] at this
      exact hA (g j) this
    · have hji : j < i := by omega
      have := transGen_of_chain_segment hchain hji (by omega)
      rw [heq] at this
      exact hA (g j) this
  have hmono : ∀ a ∈ (Finset.univ : Finset (Fin (s.length + 1))),
      g a.val ∈ (ids s).toFinset := by
    intro a _
    exact List.mem_toFinset.mpr (hmem a.val (Nat.lt_succ_iff.mp a.isLt))
  have hinj2 : Set.InjOn (fun a : Fin (s.length + 1) => g a.val)
      ↑(Finset.univ : Finset (Fin (s.length + 1))) := by
    intro a _ b _ hab
    exact Fin.ext (hinj a.val (Nat.lt_succ_iff.mp a.isLt) b.val (Nat.lt_succ_iff.mp b.isLt) hab)
  have hcard := Finset.card_le_card_of_injOn (fun a : Fin (s.length + 1) => g a.val) hmono hinj2
  rw [Finset.card_univ, Fintype.card_fin] at hcard
  have h1 : (ids s).toFinset.card ≤ (ids s).length := List.toFinset_card_le (ids s)
  have h2 : (ids s).length = s.length := List.length_map _ _
  omega

theorem chainEnds_false_of_cycle {s : List Cat} :
    ∀ (n : Nat) (x : Nat), Relation.TransGen (stepId s) x x →
      chainEnds s (some x) n = false := by
  intro n
  induction n with
  | zero => intro x _; rfl
  | succ n ih =>
    intro x hcyc
    obtain ⟨y, hxy, hyx⟩ := (Relation.TransGen.head'_iff).mp hcyc
    have hfn : stepFn s x = some y := stepFn_eq_some.mpr hxy
    rw [chainEnds_step, hfn]
    exact ih y (Relation.TransGen.tail' hyx hxy)

theorem acyclicB_iff {s : List Cat} : AcyclicB s = true ↔ Acyclic s := by
  constructor
  · intro h x hcyc
    have hx : x ∈ ids s := by
      obtain ⟨y, hxy, _⟩ := (Relation.TransGen.head'_iff).mp hcyc
      exact mem_ids_of_stepId hxy
    obtain ⟨c, hc, hid⟩ := List.mem_map.mp hx
    have hall := (List.all_eq_true.mp h) c hc
    rw [hid, chainEnds_false_of_cycle (s.length + 1) x hcyc] at hall
    exact Bool.false_ne_true hall
  · intro hA
    rw [AcyclicB, List.all_eq_true]
    intro c _
    exact chainEnds_of_acyclic hA c.id

/-! ## The validateParent walk -/

/-- If the walk completes without a revisit, then no node reachable from
its starting point along the parent chain lies in the initial visited
list. -/
theorem validateWalk_ok_avoids {s : List Cat} (hC : Closed s) :
    ∀ (n : Nat) (g : Nat → Nat) (fuel : Nat) (visited : List Nat) (cur : Cat),
      ChainN s g n → findById s (g 0) = some cur →
      validateWalk s (some cur) visited fuel = .ok →
      g n ∉ visited := by
  intro n
  induction n with
  | zero =>
    intro g fuel visited cur _ hfind hwalk
    cases fuel with
    | zero => simp [validateWalk] at hwalk
    | succ fuel =>
      by_cases hmem : cur.id ∈ visited
      · simp [validateWalk, hmem] at hwalk
      · have hid : cur.id = g 0 := findById_id_eq hfind
        rw [← hid]
        exact hmem
  | succ n ih =>
    intro g fuel visited cur hchain hfind hwalk
    cases fuel with
    | zero => simp [validateWalk] at hwalk
    | succ fuel =>
      by_cases hmem : cur.id ∈ visited
      · simp [validateWalk, hmem] at hwalk
      · rw [validateWalk, if_neg hmem] at hwalk
        obtain ⟨c0, hc0, hpar⟩ := hchain 0 (Nat.succ_pos n)
        rw [hfind] at hc0
        obtain rfl : cur = c0 := Option.some.inj hc0
        have hmemids : g 1 ∈ ids s := hC cur (findById_mem hfind) (g 1) hpar
        obtain ⟨next, hnext⟩ := exists_findById_of_mem_ids hmemids
        rw [hpar] at hwalk
        simp only [Option.some_bind] at hwalk
        rw [hnext] at hwalk
        have hchain' : ChainN s (fun i => g (i + 1)) n :=
          fun i hi => hchain (i + 1) (Nat.succ_lt_succ hi)
        have hres := ih (fun i => g (i + 1)) fuel (cur.id :: visited) next hchain' hnext hwalk
        intro hcontra
        exact hres (List.mem_cons_of_mem _ hcontra)

theorem validateParent_eq_walk {s : List Cat} {c : Cat} {p : Nat}
    (hc : c.parentCategory = some p) :
    validateParent s c = validateWalk s (findById s p) [c.id] (s.length + 1) := by
  rw [validateParent, hc]

/-- If the walk run by `validateParent` succeeds, the category being saved
is not reachable from its proposed parent: assigning that parent creates
no path back to the category. -/
theorem validateParent_ok_not_reach {s : List Cat} {c : Cat} {p : Nat} {cp : Cat}
    (hC : Closed s) (hc : c.parentCategory = some p) (hfind : findById s p = some cp)
    (hOk : validateParent s c = .ok)
    (hreach : Relation.ReflTransGen (stepId s) p c.id) : False := by
  obtain ⟨n, g, hchain, hg0, hgn⟩ := chain_of_reflTransGen hreach
  rw [validateParent_eq_walk hc, hfind] at hOk
  have := validateWalk_ok_avoids hC n g (s.length + 1) [c.id] cp hchain
    (by rw [hg0]; exact hfind) hOk
  rw [hgn] at this
  simp at this

theorem length_filter_ne_lt {a : Nat} : ∀ (m : List Nat), a ∈ m →
    (m.filter (fun i => !(i == a))).length < m.length := by
  intro m hm
  induction m with
  | nil => cases hm
  | cons b rest ih =>
    by_cases hb : b = a
    · rw [List.filter_cons, if_neg (by simp [hb])]
      exact Nat.lt_succ_of_le (List.length_filter_le _ _)
    · have hmem : a ∈ rest := by
        rcases List.mem_cons.mp hm with h | h
        · exact absurd h.symm hb
        · exact h
      rw [List.filter_cons, if_pos (by simp [hb])]
      simpa [List.length_cons] using Nat.succ_lt_succ (ih hmem)

/-- The real `validateParent` loop always terminates: each iteration visits
a stored id not yet in the visited set, so `s.length + 1` fuel never runs
out. -/
theorem validateWalk_ne_fuelOut {s : List Cat} :
    ∀ (fuel : Nat) (visited : List Nat) (cur : Cat),
      (∃ x, findById s x = some cur) →
      ((ids s).filter (fun i => !(visited.contains i))).length < fuel →
      validateWalk s (some cur) visited fuel ≠ .fuelOut := by
  intro fuel
  induction fuel with
  | zero =>
    intro visited cur _ hlt
    exact absurd hlt (Nat.not_lt_zero _)
  | succ fuel ih =>
    intro visited cur hfound hlt
    by_cases hmem : cur.id ∈ visited
    · simp [validateWalk, hmem]
    · rw [validateWalk, if_neg hmem]
      obtain ⟨x, hx⟩ := hfound
      have hcurid : cur.id ∈ ids s := List.mem_map.mpr ⟨cur, findById_mem hx, rfl⟩
      cases hnext : cur.parentCategory.bind (findById s) with
      | none => simp [validateWalk]
      | some next =>
        have hfound' : ∃ z, findById s z = some next := by
          rcases Option.bind_eq_some.mp hnext with ⟨q, _, hq⟩
          exact ⟨q, hq⟩
        refine ih (cur.id :: visited) next hfound' ?_
        have hsplit :
            (ids s).filter (fun i => !((cur.id :: visited).contains i)) =
              ((ids s).filter (fun i => !(visited.contains i))).filter
                (fun i => !(i == cur.id)) := by
          rw [List.filter_filter]
          apply List.filter_congr
          intro i _
          simp [List.contains_cons, Bool.not_or]
          tauto
        have hin : cur.id ∈ (ids s).filter (fun i => !(visited.contains i)) := by
          refine List.mem_filter.mpr ⟨hcurid, ?_⟩
          simpa using hmem
        have hdec := length_filter_ne_lt _ hin
        rw [hsplit]
        omega

theorem validateParent_ne_fuelOut (s : List Cat) (c : Cat) :
    validateParent s c ≠ .fuelOut := by
  cases hp : c.parentCategory with
  | none => simp [validateParent, hp]
  | some p =>
    rw [validateParent_eq_walk hp]
    cases hf : findById s p with
    | none => simp [validateWalk]
    | some cp =>
      refine validateWalk_ne_fuelOut (s.length + 1) [c.id] cp ⟨p, hf⟩ ?_
      have hle := List.length_filter_le (fun i => !([c.id].contains i)) (ids s)
      have hlen : (ids s).length = s.length := List.length_map _ _
      omega

/-! ## How a create or an update changes the parent relation -/

theorem findById_cons {c : Cat} {s : List Cat} {x : Nat} :
    findById (c :: s) x = if c.id = x then some c else findById s x := by
  by_cases h : c.id = x
  · simp [findById, List.find?_cons, h]
  · simp [findById, List.find?_cons, h]

theorem stepId_cons_iff {c : Cat} {s : List Cat} {x y : Nat} :
    stepId (c :: s) x y ↔
      (x = c.id ∧ c.parentCategory = some y) ∨ (x ≠ c.id ∧ stepId s x y) := by
  constructor
  · rintro ⟨d, hd, hp⟩
    rw [findById_cons] at hd
    by_cases h : c.id = x
    · left
      rw [if_pos h] at hd
      obtain rfl : c = d := Option.some.inj hd
      exact ⟨h.symm, hp⟩
    · right
      rw [if_neg h] at hd
      exact ⟨fun hx => h hx.symm, d, hd, hp⟩
  · rintro (⟨hx, hp⟩ | ⟨hx, d, hd, hp⟩)
    · exact ⟨c, by rw [findById_cons, if_pos hx.symm], hp⟩
    · exact ⟨d, by rw [findById_cons, if_neg (fun h => hx h.symm)]; exact hd, hp⟩

theorem ids_cons {c : Cat} {s : List Cat} : ids (c :: s) = c.id :: ids s := rfl

theorem findById_updateStore_ne {s : List Cat} {c : Cat} {x : Nat} (h : x ≠ c.id) :
    findById (updateStore s c) x = findById s x := by
  induction s with
  | nil => rfl
  | cons d rest ih =>
    by_cases hdc : d.id = c.id
    · have hcx : (c.id == x) = false := by simp; exact fun hh => h hh.symm
      have hdx : (d.id == x) = false := by rw [hdc]; exact hcx
      simp only [updateStore, List.map_cons, if_pos hdc, findById, List.find?_cons, hcx, hdx]
      exact ih
    · by_cases hdx : d.id = x
      · have hdxT : (d.id == x) = true := by simp [hdx]
        simp only [updateStore, List.map_cons, if_neg hdc, findById, List.find?_cons, hdxT]
      · have hdx' : (d.id == x) = false := by simp [hdx]
        simp only [updateStore, List.map_cons, if_neg hdc, findById, List.find?_cons, hdx']
        exact ih

theorem findById_updateStore_self {s : List Cat} {c old : Cat}
    (h : findById s c.id = some old) :
    findById (updateStore s c) c.id = some c := by
  induction s with
  | nil => simp [findById] at h
  | cons d rest ih =>
    by_cases hdc : d.id = c.id
    · simp [updateStore, findById, List.find?_cons, hdc]
    · have hdc' : (d.id == c.id) = false := by simp [hdc]
      rw [findById, List.find?_cons, hdc'] at h
      simp only [updateStore, List.map_cons, if_neg hdc, findById, List.find?_cons, hdc']
      exact ih h

theorem ids_updateStore {s : List Cat} {c : Cat} : ids (updateStore s c) = ids s := by
  induction s with
  | nil => rfl
  | cons d rest ih =>
    by_cases hdc : d.id = c.id
    · simp only [updateStore, List.map_cons, if_pos hdc, ids_cons]
      rw [hdc]
      exact congrArg _ ih
    · simp only [updateStore, List.map_cons, if_neg hdc, ids_cons]
      exact congrArg _ ih

theorem stepId_updateStore_iff {s : List Cat} {c old : Cat} {x y : Nat}
    (hfound : findById s c.id = some old) :
    stepId (updateStore s c) x y ↔
      (x = c.id ∧ c.parentCategory = some y) ∨ (x ≠ c.id ∧ stepId s x y) := by
  by_cases hx : x = c.id
  · subst hx
    constructor
    · rintro ⟨d, hd, hp⟩
      rw [findById_updateStore_self hfound] at hd
      obtain rfl : c = d := Option.some.inj hd
      exact Or.inl ⟨rfl, hp⟩
    · rintro (⟨_, hp⟩ | ⟨hne, _⟩)
      · exact ⟨c, findById_updateStore_self hfound, hp⟩
      · exact absurd rfl hne
  · constructor
    · rintro ⟨d, hd, hp⟩
      rw [findById_updateStore_ne hx] at hd
      exact Or.inr ⟨hx, d, hd, hp⟩
    · rintro (⟨hxc, _⟩ | ⟨_, d, hd, hp⟩)
      · exact absurd hxc hx
      · exact ⟨d, by rw [findById_updateStore_ne hx]; exact hd, hp⟩

theorem acyclic_subrel {s s' : List Cat}
    (hsub : ∀ x y, stepId s' x y → stepId s x y) (hA : Acyclic s) : Acyclic s' :=
  fun x hcyc => hA x (Relation.TransGen.mono hsub hcyc)

/-- Decomposing reachability in the mutated store: a path either uses only
old edges, or it crosses the one redirected edge `cid → p0`. -/
theorem reach_decompose {s' s : List Cat} {cid p0 : Nat}
    (hchar : ∀ x y, stepId s' x y ↔ (x = cid ∧ y = p0) ∨ (x ≠ cid ∧ stepId s x y)) :
    ∀ {x y : Nat}, Relation.ReflTransGen (stepId s') x y →
      Relation.ReflTransGen (stepId s) x y ∨
        (Relation.ReflTransGen (stepId s) x cid ∧ Relation.ReflTransGen (stepId s) p0 y) := by
  intro x y h
  induction h using Relation.ReflTransGen.head_induction_on with
  | refl => exact Or.inl Relation.ReflTransGen.refl
  | head hstep _ ih =>
    rcases (hchar _ _).mp hstep with ⟨hx, hz⟩ | ⟨hx, hstepS⟩
    · subst hx; subst hz
      rcases ih with hS | ⟨_, hp⟩
      · exact Or.inr ⟨Relation.ReflTransGen.refl, hS⟩
      · exact Or.inr ⟨Relation.ReflTransGen.refl, hp⟩
    · rcases ih with hS | ⟨hzc, hpy⟩
      · exact Or.inl (Relation.ReflTransGen.head hstepS hS)
      · exact Or.inr ⟨Relation.ReflTransGen.head hstepS hzc, hpy⟩

/-- Redirecting the parent of `cid` to `p0` keeps the relation acyclic as
long as `cid` is not reachable from `p0` along the old edges. -/
theorem acyclic_of_edgechar {s s' : List Cat} {cid p0 : Nat} (hA : Acyclic s)
    (hchar : ∀ x y, stepId s' x y ↔ (x = cid ∧ y = p0) ∨ (x ≠ cid ∧ stepId s x y))
    (hnr : ¬ Relation.ReflTransGen (stepId s) p0 cid) : Acyclic s' := by
  intro x hcyc
  obtain ⟨z, hxz, hzx⟩ := (Relation.TransGen.head'_iff).mp hcyc
  rcases (hchar x z).mp hxz with ⟨hx, hz⟩ | ⟨hx, hxzS⟩
  · subst hx; subst hz
    rcases reach_decompose hchar hzx with hS | ⟨_, hp⟩
    · exact hnr hS
    · exact hnr hp
  · rcases reach_decompose hchar hzx with hS | ⟨hzc, hpx⟩
    · exact hA x (Relation.TransGen.head' hxzS hS)
    · exact hnr (Relation.ReflTransGen.trans hpx (Relation.ReflTransGen.head hxzS hzc))

/-! ## What a successful controller call tells us -/

theorem saveCatCore_ok {s : List Cat} {old c2 c' : Cat} {s' : List Cat}
    (hop : saveCatCore s old c2 = .ok (c', s')) :
    c' = c2 ∧ s' = updateStore s c2 ∧
      (c2.parentCategory = old.parentCategory ∨ validateParent s c2 = .ok) := by
  unfold saveCatCore at hop
  by_cases hpar : c2.parentCategory ≠ old.parentCategory
  · rw [if_pos hpar] at hop
    cases hval : validateParent s c2 with
    | ok =>
      rw [hval] at hop
      simp only [Except.ok.injEq, Prod.mk.injEq] at hop
      exact ⟨hop.1.symm, hop.2.symm, Or.inr rfl⟩
    | circular => rw [hval] at hop; exact absurd hop (by simp)
    | fuelOut => rw [hval] at hop; exact absurd hop (by simp)
  · rw [if_neg hpar] at hop
    simp only [Except.ok.injEq, Prod.mk.injEq] at hop
    push_neg at hpar
    exact ⟨hop.1.symm, hop.2.symm, Or.inl hpar⟩

theorem saveUpdatedCat_ok {s : List Cat} {old c1 c' : Cat} {s' : List Cat}
    (hop : saveUpdatedCat s old c1 = .ok (c', s')) :
    c'.id = c1.id ∧ c'.parentCategory = c1.parentCategory ∧ s' = updateStore s c' ∧
      (c'.parentCategory = old.parentCategory ∨ validateParent s c' = .ok) := by
  unfold saveUpdatedCat at hop
  obtain ⟨hc, hs, hdisj⟩ := saveCatCore_ok hop
  by_cases hname : c1.name ≠ old.name
  · rw [if_pos hname] at hc hs hdisj
    subst hc
    exact ⟨rfl, rfl, hs, hdisj⟩
  · rw [if_neg hname] at hc hs hdisj
    subst hc
    exact ⟨rfl, rfl, hs, hdisj⟩

theorem saveNewCat_ok {s : List Cat} {c c' : Cat} {s' : List Cat}
    (hop : saveNewCat s c = .ok (c', s')) :
    c' = { c with slug := genSlug s c.id (slugify c.name) } ∧ s' = c' :: s ∧
      validateParent s c' = .ok := by
  have hop' :
      (match validateParent s { c with slug := genSlug s c.id (slugify c.name) } with
        | WalkRes.ok =>
          Except.ok (({ c with slug := genSlug s c.id (slugify c.name) } : Cat),
            ({ c with slug := genSlug s c.id (slugify c.name) } : Cat) :: s)
        | _ => Except.error CatErr.circular) = Except.ok (c', s') := hop
  cases hval : validateParent s { c with slug := genSlug s c.id (slugify c.name) } with
  | ok =>
    rw [hval] at hop'
    simp only [Except.ok.injEq, Prod.mk.injEq] at hop'
    obtain ⟨hc, hs⟩ := hop'
    subst hc
    exact ⟨rfl, hs.symm, hval⟩
  | circular => rw [hval] at hop'; exact absurd hop' (by simp)
  | fuelOut => rw [hval] at hop'; exact absurd hop' (by simp)

theorem createCategoryOp_ok {s : List Cat} {actor : UserM} {fid : Nat} {b : CatBody}
    {c : Cat} {s' : List Cat}
    (hop : createCategoryOp s actor fid b = .ok (c, s')) :
    s' = c :: s ∧ c.id = fid ∧ validateParent s c = .ok ∧
      (∀ p, c.parentCategory = some p → ∃ cp, findById s p = some cp) := by
  unfold createCategoryOp at hop
  by_cases hmf : b.name = "" ∨ b.description = ""
  · rw [if_pos hmf] at hop
    exact absurd hop (by simp)
  · rw [if_neg hmf] at hop
    cases hbp : b.parentCategory with
    | none =>
      rw [hbp] at hop
      obtain ⟨hc, hs, hval⟩ := saveNewCat_ok hop
      refine ⟨hs, ?_, hval, ?_⟩
      · rw [hc]; rfl
      · intro q hq
        rw [hc] at hq
        simp only [buildCat, hbp] at hq
        cases hq
    | some pid =>
      rw [hbp] at hop
      have hop2 :
          (if (findById s pid).isNone then (Except.error CatErr.parentNotFound :
              Except CatErr (Cat × List Cat))
           else saveNewCat s (buildCat actor fid b)) = Except.ok (c, s') := hop
      by_cases hpe : (findById s pid).isNone
      · rw [if_pos hpe] at hop2
        exact absurd hop2 (by simp)
      · rw [if_neg hpe] at hop2
        obtain ⟨hc, hs, hval⟩ := saveNewCat_ok hop2
        refine ⟨hs, ?_, hval, ?_⟩
        · rw [hc]; rfl
        · intro q hq
          rw [hc] at hq
          simp only [buildCat, hbp] at hq
          obtain rfl : pid = q := Option.some.inj hq
          cases hfp : findById s pid with
          | none => rw [hfp] at hpe; exact absurd rfl hpe
          | some cp => exact ⟨cp, rfl⟩

theorem updateCategoryOp_ok {s : List Cat} {actor : UserM} {cid : Nat} {p : CatPatch}
    {c' : Cat} {s' : List Cat}
    (hop : updateCategoryOp s actor cid p = .ok (c', s')) :
    ∃ c, findById s cid = some c ∧ c'.id = c.id ∧ s' = updateStore s c' ∧
      (c'.parentCategory = c.parentCategory ∨
        (validateParent s c' = .ok ∧
          ∀ q, c'.parentCategory = some q → ∃ cq, findById s q = some cq)) := by
  unfold updateCategoryOp at hop
  cases hfind : findById s cid with
  | none => rw [hfind] at hop; exact absurd hop (by simp)
  | some c =>
    rw [hfind] at hop
    refine ⟨c, rfl, ?_⟩
    have hop2 :
        (if actor.role ≠ Role.admin ∧ c.createdBy ≠ actor.id then
          (Except.error CatErr.permission : Except CatErr (Cat × List Cat))
         else
          match p.parentCategory with
          | none => saveUpdatedCat s c (patchCat actor c p)
          | some none => saveUpdatedCat s c { patchCat actor c p with parentCategory := none }
          | some (some pid) =>
            if (findById s pid).isNone then Except.error CatErr.parentNotFound
            else saveUpdatedCat s c { patchCat actor c p with parentCategory := some pid }) =
          Except.ok (c', s') := hop
    by_cases hperm : actor.role ≠ Role.admin ∧ c.createdBy ≠ actor.id
    · rw [if_pos hperm] at hop2
      exact absurd hop2 (by simp)
    · rw [if_neg hperm] at hop2
      cases hpp : p.parentCategory with
      | none =>
        rw [hpp] at hop2
        obtain ⟨hid, hpar, hs, _⟩ := saveUpdatedCat_ok hop2
        exact ⟨hid, hs, Or.inl (by rw [hpar]; simp [patchCat])⟩
      | some newPar =>
        cases newPar with
        | none =>
          rw [hpp] at hop2
          obtain ⟨hid, hpar, hs, hdisj⟩ := saveUpdatedCat_ok hop2
          refine ⟨hid, hs, ?_⟩
          rcases hdisj with heq | hval
          · exact Or.inl heq
          · refine Or.inr ⟨hval, ?_⟩
            intro q hq
            rw [hpar] at hq
            cases hq
        | some pid =>
          rw [hpp] at hop2
          have hop3 :
              (if (findById s pid).isNone then (Except.error CatErr.parentNotFound :
                  Except CatErr (Cat × List Cat))
               else saveUpdatedCat s c { patchCat actor c p with parentCategory := some pid }) =
                Except.ok (c', s') := hop2
          by_cases hpe : (findById s pid).isNone
          · rw [if_pos hpe] at hop3
            exact absurd hop3 (by simp)
          · rw [if_neg hpe] at hop3
            obtain ⟨hid, hpar, hs, hdisj⟩ := saveUpdatedCat_ok hop3
            refine ⟨hid, hs, ?_⟩
            rcases hdisj with heq | hval
            · exact Or.inl heq
            · refine Or.inr ⟨hval, ?_⟩
              intro q hq
              rw [hpar] at hq
              obtain rfl : pid = q := Option.some.inj hq
              cases hfp : findById s pid with
              | none => rw [hfp] at hpe; exact absurd rfl hpe
              | some cq => exact ⟨cq, rfl⟩

/-! ## Preservation of the forest invariant -/

theorem inv_create {s : List Cat} {actor : UserM} {fid : Nat} {b : CatBody} {c : Cat}
    {s' : List Cat} (hInv : Inv s) (hfresh : findById s fid = none)
    (hop : createCategoryOp s actor fid b = .ok (c, s')) : Inv s' := by
  obtain ⟨hClosed, hAcyc⟩ := hInv
  have hC : Closed s := closedB_iff.mp hClosed
  have hA : Acyclic s := acyclicB_iff.mp hAcyc
  obtain ⟨hs, hcid, _, hpe⟩ := createCategoryOp_ok hop
  subst hs
  constructor
  · rw [closedB_iff]
    intro d hd q hq
    rcases List.mem_cons.mp hd with rfl | hdm
    · obtain ⟨cp, hcp⟩ := hpe q hq
      rw [ids_cons]
      exact List.mem_cons_of_mem _ (mem_ids_of_findById hcp)
    · rw [ids_cons]
      exact List.mem_cons_of_mem _ (hC d hdm q hq)
  · rw [acyclicB_iff]
    cases hcp : c.parentCategory with
    | none =>
      refine acyclic_subrel ?_ hA
      intro x y hxy
      rcases stepId_cons_iff.mp hxy with ⟨_, hpar⟩ | ⟨_, hstep⟩
      · rw [hcp] at hpar; cases hpar
      · exact hstep
    | some p =>
      refine @acyclic_of_edgechar s (c :: s) c.id p hA ?_ ?_
      · intro x y
        rw [stepId_cons_iff, hcp]
        constructor
        · rintro (⟨hx, hy⟩ | h)
          · exact Or.inl ⟨hx, (Option.some.inj hy).symm⟩
          · exact Or.inr h
        · rintro (⟨hx, hy⟩ | h)
          · exact Or.inl ⟨hx, by rw [hy]⟩
          · exact Or.inr h
      · intro hreach
        rcases Relation.ReflTransGen.cases_tail hreach with heq | ⟨z, _, hstep⟩
        · obtain ⟨cp, hcp'⟩ := hpe p hcp
          have hcontra : findById s c.id = some cp := by rw [heq]; exact hcp'
          rw [hcid, hfresh] at hcontra
          cases hcontra
        · obtain ⟨d, hd, hdp⟩ := hstep
          have hmem : c.id ∈ ids s := hC d (findById_mem hd) c.id hdp
          obtain ⟨e, he⟩ := exists_findById_of_mem_ids hmem
          rw [hcid, hfresh] at he
          cases he

theorem inv_update {s : List Cat} {actor : UserM} {cid : Nat} {p : CatPatch} {c' : Cat}
    {s' : List Cat} (hInv : Inv s)
    (hop : updateCategoryOp s actor cid p = .ok (c', s')) : Inv s' := by
  obtain ⟨hClosed, hAcyc⟩ := hInv
  have hC : Closed s := closedB_iff.mp hClosed
  have hA : Acyclic s := acyclicB_iff.mp hAcyc
  obtain ⟨c, hfind, hid, hs, hdisj⟩ := updateCategoryOp_ok hop
  subst hs
  have hfound' : findById s c'.id = some c := by
    rw [hid, findById_id_eq hfind]
    exact hfind
  constructor
  · rw [closedB_iff]
    intro d hd q hq
    rw [ids_updateStore]
    rcases List.mem_map.mp hd with ⟨e, he, hrepl⟩
    by_cases hec : e.id = c'.id
    · have hd' : d = c' := by rw [← hrepl]; simp [hec]
      subst hd'
      rcases hdisj with heq | ⟨_, hex⟩
      · rw [heq] at hq
        exact hC c (findById_mem hfind) q hq
      · obtain ⟨cq, hcq⟩ := hex q hq
        exact mem_ids_of_findById hcq
    · have hd' : d = e := by rw [← hrepl]; simp [hec]
      rw [hd'] at hq
      exact hC e he q hq
  · rw [acyclicB_iff]
    rcases hdisj with heq | ⟨hval, hex⟩
    · refine acyclic_subrel ?_ hA
      intro x y hxy
      rcases (stepId_updateStore_iff hfound').mp hxy with ⟨hx, hpar⟩ | ⟨_, hstep⟩
      · subst hx
        exact ⟨c, hfound', by rw [← heq]; exact hpar⟩
      · exact hstep
    · cases hcp : c'.parentCategory with
      | none =>
        refine acyclic_subrel ?_ hA
        intro x y hxy
        rcases (stepId_updateStore_iff hfound').mp hxy with ⟨_, hpar⟩ | ⟨_, hstep⟩
        · rw [hcp] at hpar; cases hpar
        · exact hstep
      | some q =>
        obtain ⟨cq, hcq⟩ := hex q hcp
        refine @acyclic_of_edgechar s (updateStore s c') c'.id q hA ?_ ?_
        · intro x y
          rw [stepId_updateStore_iff hfound', hcp]
          constructor
          · rintro (⟨hx, hy⟩ | h)
            · exact Or.inl ⟨hx, (Option.some.inj hy).symm⟩
            · exact Or.inr h
          · rintro (⟨hx, hy⟩ | h)
            · exact Or.inl ⟨hx, by rw [hy]⟩
            · exact Or.inr h
        · intro hreach
          exact validateParent_ok_not_reach hC hcp hcq hval hreach

theorem inv_catStep {s s' : List Cat} (hInv : Inv s) (h : CatStep s s') : Inv s' := by
  cases h with
  | create _ _ _ _ _ hfresh hop => exact inv_create hInv hfresh hop
  | update _ _ _ _ _ hop => exact inv_update hInv hop

theorem inv_steps {s s' : List Cat} (hInv : Inv s)
    (h : Relation.ReflTransGen CatStep s s') : Inv s' := by
  induction h with
  | refl => exact hInv
  | tail _ hstep ih => exact inv_catStep ih hstep

/-- Reparenting a category below one of its descendants (or below itself)
is rejected: the walk revisits the category being modified, the hook
throws, and the controller answers with the circular-reference error. -/
theorem circular_detected {s : List Cat} (hC : Closed s) (hA : Acyclic s)
    {actor : UserM} {cid q : Nat} {c : Cat}
    (hadmin : actor.role = Role.admin)
    (hfind : findById s cid = some c)
    (hreach : Relation.ReflTransGen (stepId s) q c.id) :
    updateCategoryOp s actor cid (parentPatch q) = .error .circular := by
  have hcid : c.id = cid := findById_id_eq hfind
  have hfind' : findById s c.id = some c := by rw [hcid]; exact hfind
  obtain ⟨cq, hcq⟩ : ∃ cq, findById s q = some cq := by
    rcases Relation.ReflTransGen.cases_head hreach with heq | ⟨z, hstep, _⟩
    · exact ⟨c, by rw [heq]; exact hfind'⟩
    · obtain ⟨d, hd, _⟩ := hstep
      exact ⟨d, hd⟩
  have hne : c.parentCategory ≠ some q := by
    intro heq
    exact hA c.id (Relation.TransGen.head' ⟨c, hfind', heq⟩ hreach)
  unfold updateCategoryOp
  rw [hfind]
  show (if actor.role ≠ Role.admin ∧ c.createdBy ≠ actor.id then
          (Except.error CatErr.permission : Except CatErr (Cat × List Cat))
        else
          match (parentPatch q).parentCategory with
          | none => saveUpdatedCat s c (patchCat actor c (parentPatch q))
          | some none =>
            saveUpdatedCat s c { patchCat actor c (parentPatch q) with parentCategory := none }
          | some (some pid) =>
            if (findById s pid).isNone then Except.error CatErr.parentNotFound
            else saveUpdatedCat s c
              { patchCat actor c (parentPatch q) with parentCategory := some pid }) =
      Except.error CatErr.circular
  rw [if_neg (by rw [hadmin]; simp)]
  show (if (findById s q).isNone then (Except.error CatErr.parentNotFound :
          Except CatErr (Cat × List Cat))
        else saveUpdatedCat s c { patchCat actor c (parentPatch q) with parentCategory := some q }) =
      Except.error CatErr.circular
  rw [if_neg (by rw [hcq]; simp)]
  unfold saveUpdatedCat
  rw [if_neg (by simp [patchCat, parentPatch])]
  unfold saveCatCore
  rw [if_pos (by simp [patchCat, parentPatch]; exact fun h => hne h.symm)]
  have hvalne :
      validateParent s { patchCat actor c (parentPatch q) with parentCategory := some q } ≠
        .ok := by
    intro hOk
    refine validateParent_ok_not_reach hC ?_ hcq hOk ?_
    · rfl
    · exact hreach
  cases hval : validateParent s
      { patchCat actor c (parentPatch q) with parentCategory := some q } with
  | ok => exact absurd hval hvalne
  | circular => rfl
  | fuelOut => rfl

/-! ## Claim C1 -/

/-- C1: every category create or update that assigns a parent walks up the
parent chain from the proposed parent and is rejected with the
circular-reference error when the walk would come back to the category
being modified; consequently, along every sequence of controller creates
and updates starting from a well-formed store, the parent relation stays
acyclic — no category is ever its own ancestor. -/
theorem C1_parent_cycle_safety (s s' : List Cat) (hInv : Inv s)
    (hsteps : Relation.ReflTransGen CatStep s s') :
    Inv s' ∧ (∀ x, ¬ Relation.TransGen (stepId s') x x) ∧
      (∀ (actor : UserM) (cid q : Nat) (c : Cat),
        actor.role = Role.admin →
        findById s' cid = some c →
        Relation.ReflTransGen (stepId s') q c.id →
        updateCategoryOp s' actor cid (parentPatch q) = .error .circular) := by
  have hInv' : Inv s' := inv_steps hInv hsteps
  have hA' : Acyclic s' := acyclicB_iff.mp hInv'.2
  have hC' : Closed s' := closedB_iff.mp hInv'.1
  exact ⟨hInv', hA',
    fun actor cid q c hadmin hfind hreach =>
      circular_detected hC' hA' hadmin hfind hreach⟩

def demoMeta : Metadata := ⟨[], [], []⟩

def catRoot : Cat :=
  ⟨1, "Initial Access", "initial-access", "root category", "#3498db", "folder",
    none, 0, true, demoMeta, 10⟩

def catChild : Cat :=
  ⟨2, "Phishing", "phishing", "child category", "#3498db", "folder",
    some 1, 0, true, demoMeta, 10⟩

def demoStore : List Cat := [catRoot, catChild]

def demoAdmin : UserM := ⟨10, Role.admin⟩

/-- C1 witness: a concrete two-category store satisfies the invariant, and
reparenting the root below its own child is answered with the
circular-reference error. -/
theorem C1_parent_cycle_safety_witness :
    Inv demoStore ∧
      updateCategoryOp demoStore demoAdmin 1 (parentPatch 2) = .error .circular := by
  have h := C1_parent_cycle_safety demoStore demoStore ⟨by decide, by decide⟩
    Relation.ReflTransGen.refl
  refine ⟨h.1, ?_⟩
  exact h.2.2 demoAdmin 1 2 catRoot rfl (by decide)
    (Relation.ReflTransGen.single ⟨catChild, rfl, rfl⟩)

/-! ## Claim C3 -/

def cycA : Cat :=
  ⟨5, "A", "a", "cycle member", "#3498db", "folder", some 6, 0, true, demoMeta, 10⟩

def cycB : Cat :=
  ⟨6, "B", "b", "cycle member", "#3498db", "folder", some 5, 0, true, demoMeta, 10⟩

/-- A store whose two categories are each other's parent. -/
def cycStore : List Cat := [cycA, cycB]

theorem cyc_go_none : ∀ fuel,
    (∀ path, getFullPathGo cycStore cycA path fuel = none) ∧
    (∀ path, getFullPathGo cycStore cycB path fuel = none) := by
  intro fuel
  induction fuel with
  | zero => exact ⟨fun _ => rfl, fun _ => rfl⟩
  | succ fuel ih =>
    constructor
    · intro path
      show getFullPathGo cycStore cycB (cycB.name :: path) fuel = none
      exact ih.2 _
    · intro path
      show getFullPathGo cycStore cycA (cycA.name :: path) fuel = none
      exact ih.1 _

/-- C3 counterexample: on a store whose parent chain contains a cycle, the
getFullPath loop of the source never completes — it tracks no visited ids,
so no iteration count suffices, refuting the claimed cycle-proof
termination. -/
theorem C3_getFullPath_counterexample : ¬ GetFullPathTerminates cycStore cycA := by
  rintro ⟨fuel, hsome⟩
  rw [(cyc_go_none fuel).1 [cycA.name]] at hsome
  cases hsome

theorem getFullPathGo_parent_none {s : List Cat} {cur : Cat} {path : List String}
    {fuel : Nat} (hpar : cur.parentCategory = none) :
    getFullPathGo s cur path fuel = some path := by
  rw [getFullPathGo, hpar]

theorem getFullPathGo_parent_some {s : List Cat} {cur : Cat} {path : List String}
    {fuel p : Nat} (hpar : cur.parentCategory = some p) :
    getFullPathGo s cur path (fuel + 1) =
      match findById s p with
      | none => some path
      | some next => getFullPathGo s next (next.name :: path) fuel := by
  rw [getFullPathGo, hpar]

theorem go_isSome_of_chainEnds {s : List Cat} :
    ∀ (fuel : Nat) (cur : Cat) (path : List String),
      findById s cur.id = some cur →
      chainEnds s (some cur.id) fuel = true →
      (getFullPathGo s cur path fuel).isSome = true := by
  intro fuel
  induction fuel with
  | zero =>
    intro cur path _ hend
    cases hend
  | succ fuel ih =>
    intro cur path hfind hend
    rw [chainEnds_step] at hend
    have hstep : stepFn s cur.id = cur.parentCategory := by
      rw [stepFn, hfind, Option.some_bind]
    cases hpar : cur.parentCategory with
    | none => rw [getFullPathGo_parent_none hpar]; rfl
    | some p =>
      rw [hstep, hpar] at hend
      rw [getFullPathGo_parent_some hpar]
      cases hfp : findById s p with
      | none => rfl
      | some next =>
        have hnextid : next.id = p := findById_id_eq hfp
        have hfind' : findById s next.id = some next := by rw [hnextid]; exact hfp
        have hend' : chainEnds s (some next.id) fuel = true := by rw [hnextid]; exact hend
        exact ih next (next.name :: path) hfind' hend'

/-- C3 (amended): getFullPath walks the parent chain root-ward, prepending
each ancestor name and joining the names with " > ", but it tracks no
visited ids; termination is guaranteed only on stores whose parent
relation is acyclic, where the walk completes within length + 1 loop
iterations. -/
theorem C3_getFullPath_amended (s : List Cat) (c : Cat)
    (hA : AcyclicB s = true) (hc : findById s c.id = some c) :
    (getFullPath s c (s.length + 1)).isSome = true := by
  have hAcyc : Acyclic s := acyclicB_iff.mp hA
  have hend := chainEnds_of_acyclic hAcyc c.id
  have hgo := go_isSome_of_chainEnds (s.length + 1) c [c.name] hc hend
  rw [getFullPath]
  simpa using hgo

/-- C3 witness: on the concrete acyclic demo store the walk finishes and
produces the " > "-joined path. -/
theorem C3_getFullPath_amended_witness :
    AcyclicB demoStore = true ∧
      (getFullPath demoStore catChild (demoStore.length + 1)).isSome = true ∧
      getFullPath demoStore catChild (demoStore.length + 1) =
        some "Initial Access > Phishing" :=
  ⟨by decide, C3_getFullPath_amended demoStore catChild (by decide) (by decide), by decide⟩

/-! ## Claim C4 -/

theorem probeGo_succ {s : List Cat} {i : Nat} {base sl : String} {counter fuel : Nat} :
    probeGo s i base sl counter (fuel + 1) =
      if slugTaken s i sl then
        probeGo s i base (base ++ "-" ++ toString counter) (counter + 1) fuel
      else sl := rfl

theorem slugTaken_false_of_free {s : List Cat} {i : Nat} {sl : String}
    (h : ∀ d ∈ s, d.slug ≠ sl) : slugTaken s i sl = false := by
  rw [slugTaken, List.any_eq_false]
  intro d hd
  simp [h d hd]

theorem slugTaken_true_of_mem {s : List Cat} {d : Cat} {i : Nat} {sl : String}
    (hd : d ∈ s) (hsl : d.slug = sl) (hne : d.id ≠ i) : slugTaken s i sl = true := by
  rw [slugTaken, List.any_eq_true]
  exact ⟨d, hd, by simp [hsl, hne]⟩

theorem genSlug_free {s : List Cat} {i : Nat} {base : String}
    (hfree : ∀ d ∈ s, d.slug ≠ base) : genSlug s i base = base := by
  rw [genSlug, probeGo_succ, slugTaken_false_of_free hfree]
  simp

theorem genSlug_second {s : List Cat} {c1 : Cat} {i : Nat} {base : String}
    (htaken : slugTaken (c1 :: s) i base = true)
    (hfree : slugTaken (c1 :: s) i (base ++ "-" ++ toString 1) = false) :
    genSlug (c1 :: s) i base = base ++ "-" ++ toString 1 := by
  rw [genSlug]
  rw [show (c1 :: s).length + 1 = s.length + 1 + 1 from by simp]
  rw [probeGo_succ, htaken]
  simp only [if_true]
  rw [probeGo_succ, hfree]
  simp

theorem string_ne_append_sep {base k : String} :
    base ≠ base ++ "-" ++ k := by
  intro h
  have hl := congrArg String.length h
  rw [String.length_append, String.length_append] at hl
  have hdash : ("-" : String).length = 1 := rfl
  omega

theorem createCategoryOp_ok_record {s : List Cat} {actor : UserM} {fid : Nat} {b : CatBody}
    {c : Cat} {s' : List Cat}
    (hop : createCategoryOp s actor fid b = .ok (c, s')) :
    c = { buildCat actor fid b with slug := genSlug s fid (slugify (jsTrim b.name)) } := by
  unfold createCategoryOp at hop
  by_cases hmf : b.name = "" ∨ b.description = ""
  · rw [if_pos hmf] at hop
    exact absurd hop (by simp)
  · rw [if_neg hmf] at hop
    cases hbp : b.parentCategory with
    | none =>
      rw [hbp] at hop
      obtain ⟨hc, _, _⟩ := saveNewCat_ok hop
      rw [hc]; rfl
    | some pid =>
      rw [hbp] at hop
      have hop2 :
          (if (findById s pid).isNone then (Except.error CatErr.parentNotFound :
              Except CatErr (Cat × List Cat))
           else saveNewCat s (buildCat actor fid b)) = Except.ok (c, s') := hop
      by_cases hpe : (findById s pid).isNone
      · rw [if_pos hpe] at hop2
        exact absurd hop2 (by simp)
      · rw [if_neg hpe] at hop2
        obtain ⟨hc, _, _⟩ := saveNewCat_ok hop2
        rw [hc]; rfl

theorem saveUpdatedCat_slug_preserved {s : List Cat} {old c1 c' : Cat} {s' : List Cat}
    (hname : c1.name = old.name)
    (hop : saveUpdatedCat s old c1 = .ok (c', s')) : c'.slug = c1.slug := by
  unfold saveUpdatedCat at hop
  rw [if_neg (fun hne => hne hname)] at hop
  obtain ⟨hc, _, _⟩ := saveCatCore_ok hop
  rw [hc]

/-- The slug is regenerated only when the name changes: an update whose
patch leaves the name untouched keeps the stored slug. -/
theorem updateCategoryOp_slug_frame {s : List Cat} {actor : UserM} {cid : Nat}
    {pt : CatPatch} {c c' : Cat} {s' : List Cat}
    (hfind : findById s cid = some c)
    (hname : (pt.name.map jsTrim).getD c.name = c.name)
    (hop : updateCategoryOp s actor cid pt = .ok (c', s')) : c'.slug = c.slug := by
  unfold updateCategoryOp at hop
  rw [hfind] at hop
  have hop2 :
      (if actor.role ≠ Role.admin ∧ c.createdBy ≠ actor.id then
        (Except.error CatErr.permission : Except CatErr (Cat × List Cat))
       else
        match pt.parentCategory with
        | none => saveUpdatedCat s c (patchCat actor c pt)
        | some none => saveUpdatedCat s c { patchCat actor c pt with parentCategory := none }
        | some (some pid) =>
          if (findById s pid).isNone then Except.error CatErr.parentNotFound
          else saveUpdatedCat s c { patchCat actor c pt with parentCategory := some pid }) =
        Except.ok (c', s') := hop
  by_cases hperm : actor.role ≠ Role.admin ∧ c.createdBy ≠ actor.id
  · rw [if_pos hperm] at hop2
    exact absurd hop2 (by simp)
  · rw [if_neg hperm] at hop2
    have hpname : (patchCat actor c pt).name = c.name := hname
    cases hpp : pt.parentCategory with
    | none =>
      rw [hpp] at hop2
      have := saveUpdatedCat_slug_preserved hpname hop2
      rw [this]
      simp [patchCat]
    | some newPar =>
      cases newPar with
      | none =>
        rw [hpp] at hop2
        have hop2b :
            saveUpdatedCat s c { patchCat actor c pt with parentCategory := none } =
              Except.ok (c', s') := hop2
        have hpname2 :
            ({ patchCat actor c pt with parentCategory := none } : Cat).name = c.name := hpname
        have hslug := saveUpdatedCat_slug_preserved hpname2 hop2b
        rw [hslug]
        simp [patchCat]
      | some pid =>
        rw [hpp] at hop2
        have hop3 :
            (if (findById s pid).isNone then (Except.error CatErr.parentNotFound :
                Except CatErr (Cat × List Cat))
             else saveUpdatedCat s c { patchCat actor c pt with parentCategory := some pid }) =
              Except.ok (c', s') := hop2
        by_cases hpe : (findById s pid).isNone
        · rw [if_pos hpe] at hop3
          exact absurd hop3 (by simp)
        · rw [if_neg hpe] at hop3
          have hpname2 :
              ({ patchCat actor c pt with parentCategory := some pid } : Cat).name = c.name :=
            hpname
          have hslug := saveUpdatedCat_slug_preserved hpname2 hop3
          rw [hslug]
          simp [patchCat]

/-- C4: a create generates its slug by lower-casing the name, collapsing
runs of non-alphanumeric characters, trimming separators (`slugify`) and
probing `-1`, `-2`, ... for uniqueness; two categories created in a row
with the same name get distinct slugs, the second suffixed `-1`; and an
update that does not change the name keeps the slug. -/
theorem C4_slug_generation
    (s : List Cat) (actor actor2 : UserM) (fid1 fid2 : Nat) (b b2 : CatBody)
    (c1 c2 : Cat) (s1 s2 : List Cat)
    (hop1 : createCategoryOp s actor fid1 b = .ok (c1, s1))
    (hop2 : createCategoryOp s1 actor2 fid2 b2 = .ok (c2, s2))
    (hsame : slugify (jsTrim b2.name) = slugify (jsTrim b.name))
    (hfresh2 : findById s1 fid2 = none)
    (hfree0 : ∀ d ∈ s, d.slug ≠ slugify (jsTrim b.name))
    (hfree1 : ∀ d ∈ s, d.slug ≠ slugify (jsTrim b.name) ++ "-" ++ toString 1) :
    c1.slug = slugify (jsTrim b.name) ∧
      c2.slug = slugify (jsTrim b.name) ++ "-" ++ toString 1 ∧
      c1.slug ≠ c2.slug ∧
      (∀ (s3 : List Cat) (actor3 : UserM) (cid : Nat) (pt : CatPatch) (c c' : Cat)
          (s4 : List Cat),
        findById s3 cid = some c →
        (pt.name.map jsTrim).getD c.name = c.name →
        updateCategoryOp s3 actor3 cid pt = .ok (c', s4) → c'.slug = c.slug) := by
  obtain ⟨hs1, hcid1, _, _⟩ := createCategoryOp_ok hop1
  have hrec1 := createCategoryOp_ok_record hop1
  have hslug1 : c1.slug = genSlug s fid1 (slugify (jsTrim b.name)) := by rw [hrec1]
  have hbase1 : c1.slug = slugify (jsTrim b.name) := by
    rw [hslug1, genSlug_free hfree0]
  have hrec2 := createCategoryOp_ok_record hop2
  have hslug2 : c2.slug = genSlug s1 fid2 (slugify (jsTrim b2.name)) := by rw [hrec2]
  have hne12 : c1.id ≠ fid2 := by
    intro heq
    have hmem : c1 ∈ s1 := by rw [hs1]; exact List.mem_cons_self _ _
    obtain ⟨e, he⟩ := exists_findById_of_mem_ids (List.mem_map.mpr ⟨c1, hmem, heq⟩)
    rw [hfresh2] at he
    cases he
  have hbase2 : c2.slug = slugify (jsTrim b.name) ++ "-" ++ toString 1 := by
    rw [hslug2, hsame, hs1]
    refine genSlug_second ?_ ?_
    · exact slugTaken_true_of_mem (List.mem_cons_self _ _) hbase1 hne12
    · refine slugTaken_false_of_free ?_
      intro d hd
      rcases List.mem_cons.mp hd with rfl | hdm
      · rw [hbase1]
        exact string_ne_append_sep
      · exact hfree1 d hdm
  refine ⟨hbase1, hbase2, ?_, ?_⟩
  · rw [hbase1, hbase2]
    exact string_ne_append_sep
  · intro s3 actor3 cid pt c c' s4 hfind hname hop
    exact updateCategoryOp_slug_frame hfind hname hop

def bodyC4 : CatBody :=
  ⟨"Initial Access!", "root category", none, none, none, none, none⟩

def catC4a : Cat :=
  ⟨1, "Initial Access!", "initial-access", "root category", "#3498db", "folder",
    none, 0, true, demoMeta, 10⟩

def catC4b : Cat :=
  ⟨2, "Initial Access!", "initial-access-1", "root category", "#3498db", "folder",
    none, 0, true, demoMeta, 10⟩

/-- C4 witness: creating two categories named "Initial Access!" into an
empty store yields the slugs "initial-access" and "initial-access-1". -/
theorem C4_slug_generation_witness :
    createCategoryOp [] demoAdmin 1 bodyC4 = .ok (catC4a, [catC4a]) ∧
    createCategoryOp [catC4a] demoAdmin 2 bodyC4 = .ok (catC4b, [catC4b, catC4a]) ∧
    catC4a.slug = "initial-access" ∧ catC4b.slug = "initial-access-1" ∧
      catC4a.slug ≠ catC4b.slug := by
  have hop1 : createCategoryOp [] demoAdmin 1 bodyC4 = .ok (catC4a, [catC4a]) := rfl
  have hop2 : createCategoryOp [catC4a] demoAdmin 2 bodyC4 = .ok (catC4b, [catC4b, catC4a]) :=
    rfl
  have h := C4_slug_generation [] demoAdmin demoAdmin 1 2 bodyC4 bodyC4
    catC4a catC4b [catC4a] [catC4b, catC4a] hop1 hop2 rfl rfl
    (fun d hd => absurd hd (List.not_mem_nil d))
    (fun d hd => absurd hd (List.not_mem_nil d))
  exact ⟨hop1, hop2, rfl, rfl, h.2.2.1⟩

/-! ## Claim C5 -/

/-- C5: deleting a category that still has child categories or referencing
techniques is refused by the controller with the dependency error carrying
the corresponding dependency count, and neither the category store nor the
technique store changes. -/
theorem C5_delete_dependency (s : List Cat) (techs : List Tech) (actor : UserM)
    (cid : Nat) (c : Cat)
    (hfind : findById s cid = some c)
    (hadmin : actor.role = Role.admin)
    (hdep : (∃ d ∈ s, d.parentCategory = some cid) ∨ (∃ t ∈ techs, t.category = some cid)) :
    (((deleteCategoryOp s techs actor cid).error =
        some (DelErr.dependencySubcategories
          ((s.filter (fun d => d.parentCategory == some cid)).length)) ∧
        0 < (s.filter (fun d => d.parentCategory == some cid)).length) ∨
      ((deleteCategoryOp s techs actor cid).error =
        some (DelErr.dependencyTechniques
          ((techs.filter (fun t => t.category == some cid)).length)) ∧
        (s.filter (fun d => d.parentCategory == some cid)).length = 0 ∧
        0 < (techs.filter (fun t => t.category == some cid)).length)) ∧
    (deleteCategoryOp s techs actor cid).categories = s ∧
    (deleteCategoryOp s techs actor cid).techniques = techs := by
  have hkey : deleteCategoryOp s techs actor cid =
      (if (s.filter (fun d => d.parentCategory == some cid)).length > 0 then
        ⟨some (DelErr.dependencySubcategories
          ((s.filter (fun d => d.parentCategory == some cid)).length)), s, techs⟩
      else if (techs.filter (fun t => t.category == some cid)).length > 0 then
        ⟨some (DelErr.dependencyTechniques
          ((techs.filter (fun t => t.category == some cid)).length)), s, techs⟩
      else (⟨none, s.filter (fun d => d.id != cid), techs⟩ : DelOutcome)) := by
    unfold deleteCategoryOp
    rw [hfind]
    show (if actor.role ≠ Role.admin then (⟨some DelErr.permission, s, techs⟩ : DelOutcome)
          else _) = _
    rw [if_neg (by rw [hadmin]; simp)]
  by_cases hsub : (s.filter (fun d => d.parentCategory == some cid)).length > 0
  · rw [hkey, if_pos hsub]
    exact ⟨Or.inl ⟨rfl, hsub⟩, rfl, rfl⟩
  · have hsub0 : (s.filter (fun d => d.parentCategory == some cid)).length = 0 := by omega
    have htc : (techs.filter (fun t => t.category == some cid)).length > 0 := by
      rcases hdep with ⟨d, hd, hpar⟩ | ⟨t, ht, hcat⟩
      · exfalso
        apply hsub
        have hmem : d ∈ s.filter (fun d => d.parentCategory == some cid) :=
          List.mem_filter.mpr ⟨hd, by simp [hpar]⟩
        exact List.length_pos.mpr (List.ne_nil_of_mem hmem)
      · have hmem : t ∈ techs.filter (fun t => t.category == some cid) :=
          List.mem_filter.mpr ⟨ht, by simp [hcat]⟩
        exact List.length_pos.mpr (List.ne_nil_of_mem hmem)
    rw [hkey, if_neg hsub, if_pos htc]
    exact ⟨Or.inr ⟨rfl, hsub0, htc⟩, rfl, rfl⟩

def demoTech : Tech :=
  ⟨100, "Phishing", some "T1566", "sends deceptive mail", some 1, none, none,
    [], [], [], ⟨"", []⟩, ⟨"", []⟩, [], [], [], [], true, "1.0", none, "Medium",
    .Draft, 10, none⟩

/-- C5 witness: deleting the demo root category, which has one child
category, answers with the dependency error and count 1 and mutates
nothing. -/
theorem C5_delete_dependency_witness :
    (deleteCategoryOp demoStore [demoTech] demoAdmin 1).error =
        some (DelErr.dependencySubcategories 1) ∧
      (deleteCategoryOp demoStore [demoTech] demoAdmin 1).categories = demoStore ∧
      (deleteCategoryOp demoStore [demoTech] demoAdmin 1).techniques = [demoTech] := by
  have h := C5_delete_dependency demoStore [demoTech] demoAdmin 1 catRoot rfl rfl
    (Or.inl ⟨catChild, by decide, rfl⟩)
  obtain ⟨hdis, hc, ht⟩ := h
  refine ⟨?_, hc, ht⟩
  rcases hdis with ⟨he, _⟩ | ⟨_, habs, _⟩
  · exact he
  · exact absurd habs (by decide)

/-! ## Claim C6 -/

def dupSrc : Tech :=
  ⟨100, "Phishing", some "T1566", "sends deceptive mail", some 1,
    some "uploads/files/doc.pdf", some "uploads/images/pic.png",
    ["mail"], ["Windows"], [⟨"logs", ""⟩], ⟨"train users", ["M1017"]⟩,
    ⟨"watch inbound mail", []⟩, [⟨"src", "https://a.example", ""⟩],
    ["Initial Access"], [⟨"mitre-attack", "initial-access"⟩],
    [⟨"2.5", "revised twice", 10⟩], false, "2.5", some "A.12.2", "High",
    .Approved, 10, some 10⟩

/-- C6 counterexample: the claim implies a duplicate keeps every content
field not in its exception list, in particular the version string; on this
technique the duplicate resets the version from "2.5" to the schema
default, so the claim as stated is false. -/
theorem C6_duplicate_counterexample : (duplicate dupSrc 200 7).version ≠ dupSrc.version := by
  decide

/-- C6 (amended): a duplicate copies description, category, tags,
platforms, data sources, mitigation, detection, references, tactics,
kill-chain phases, ISO reference and risk level; it gets a fresh id, drops
the external reference code and both attachment paths, starts with an
empty revision history, resets status to Draft and version to "1.0",
comes back active with no last modifier, the name gains the copy suffix,
and the creator is the acting user. -/
theorem C6_duplicate_amended (t : Tech) (freshId userId : Nat) :
    (duplicate t freshId userId).name = t.name ++ " (Copia)" ∧
    (duplicate t freshId userId).description = t.description ∧
    (duplicate t freshId userId).category = t.category ∧
    (duplicate t freshId userId).tags = t.tags ∧
    (duplicate t freshId userId).platforms = t.platforms ∧
    (duplicate t freshId userId).datasources = t.datasources ∧
    (duplicate t freshId userId).mitigation = t.mitigation ∧
    (duplicate t freshId userId).detection = t.detection ∧
    (duplicate t freshId userId).references = t.references ∧
    (duplicate t freshId userId).tactics = t.tactics ∧
    (duplicate t freshId userId).killChainPhases = t.killChainPhases ∧
    (duplicate t freshId userId).iso27001Reference = t.iso27001Reference ∧
    (duplicate t freshId userId).riskLevel = t.riskLevel ∧
    (duplicate t freshId userId).id = freshId ∧
    (duplicate t freshId userId).mitreid = none ∧
    (duplicate t freshId userId).image = none ∧
    (duplicate t freshId userId).fileLocation = none ∧
    (duplicate t freshId userId).revisionHistory = [] ∧
    (duplicate t freshId userId).status = Status.Draft ∧
    (duplicate t freshId userId).version = "1.0" ∧
    (duplicate t freshId userId).isActive = true ∧
    (duplicate t freshId userId).createdBy = userId ∧
    (duplicate t freshId userId).lastModifiedBy = none :=
  ⟨rfl, rfl, rfl, rfl, rfl, rfl, rfl, rfl, rfl, rfl, rfl, rfl, rfl, rfl, rfl,
    rfl, rfl, rfl, rfl, rfl, rfl, rfl, rfl⟩

/-! ## Claim C2 -/

/-- An update request body that only carries a new description. -/
def descPatch (d : String) : TechPatch :=
  ⟨none, some d, none, none, none, none⟩

theorem addRevision_eq {t : Tech} {chg : String} {uid : Nat} (hv : t.version ≠ "")
    (hchg : chg ≠ "") :
    addRevision t chg uid =
      { t with
        revisionHistory := t.revisionHistory ++
          [⟨String.intercalate "." ((bumpParts (parseParts t.version)).map toString), chg, uid⟩]
        version := String.intercalate "." ((bumpParts (parseParts t.version)).map toString)
        lastModifiedBy := some uid } := by
  unfold addRevision
  rw [if_neg hv, if_neg hchg]

/-- C2: an update that changes only the description appends exactly one
revision entry summarizing `description: old → new` and advances the
version by the dotted-increment rule — the minor component is incremented
as a number ("1.9" becomes "1.10"), and a version with a single component
is padded with 0 before incrementing. -/
theorem C2_description_update_revision (cats : List Cat) (techs : List Tech)
    (actor : UserM) (tid : Nat) (t : Tech) (d : String)
    (ht : findTechById techs tid = some t)
    (hperm : actor.role = Role.admin ∨ t.createdBy = actor.id)
    (hd : d ≠ t.description)
    (hv : t.version ≠ "") :
    ∃ t', updateTechnique cats techs actor tid (descPatch d) =
        .ok (t', updateTechStore techs t') ∧
      t'.revisionHistory = t.revisionHistory ++
        [⟨String.intercalate "." ((bumpParts (parseParts t.version)).map toString),
          "description: " ++ t.description ++ " → " ++ d, actor.id⟩] ∧
      t'.version = String.intercalate "." ((bumpParts (parseParts t.version)).map toString) ∧
      t'.description = d ∧ t'.name = t.name ∧ t'.id = t.id ∧
      t'.lastModifiedBy = some actor.id ∧
      (∀ a b, parseParts t.version = [a, b] →
        t'.version = toString a ++ "." ++ toString (b + 1)) ∧
      (∀ a, parseParts t.version = [a] → t'.version = toString a ++ "." ++ toString 1) := by
  have hne : t.description ≠ d := fun he => hd he.symm
  have hch : patchChanges t (descPatch d) = ["description: " ++ t.description ++ " → " ++ d] := by
    simp [patchChanges, descPatch, hne]
  have hchgne : ("description: " ++ t.description ++ " → " ++ d) ≠ "" := by
    intro h
    have hl := congrArg String.length h
    rw [String.length_append, String.length_append, String.length_append] at hl
    have h13 : ("description: " : String).length = 13 := rfl
    have h0 : ("" : String).length = 0 := rfl
    omega
  have hpermneg : ¬ (actor.role ≠ Role.admin ∧ t.createdBy ≠ actor.id) :=
    fun hcond => hperm.elim (fun ha => hcond.1 ha) (fun hc => hcond.2 hc)
  have hvt1 : ({ applyTechPatch t (descPatch d) with
      lastModifiedBy := some actor.id } : Tech).version ≠ "" := hv
  have haddr := @addRevision_eq
    { applyTechPatch t (descPatch d) with lastModifiedBy := some actor.id }
    ("description: " ++ t.description ++ " → " ++ d) actor.id hvt1 hchgne
  refine ⟨addRevision { applyTechPatch t (descPatch d) with lastModifiedBy := some actor.id }
      ("description: " ++ t.description ++ " → " ++ d) actor.id, ?_, ?_, ?_, ?_, ?_, ?_, ?_,
      ?_, ?_⟩
  · unfold updateTechnique
    rw [ht]
    show (if actor.role ≠ Role.admin ∧ t.createdBy ≠ actor.id then
            (Except.error UpdTechErr.permission : Except UpdTechErr (Tech × List Tech))
          else
            match (descPatch d).category, t.category with
            | some _, none => Except.error UpdTechErr.internal
            | some cid, some old =>
              if cid ≠ old ∧ (findById cats cid).isNone then
                Except.error UpdTechErr.categoryNotFound
              else updateTechniqueBody techs actor t (descPatch d)
            | none, _ => updateTechniqueBody techs actor t (descPatch d)) = _
    rw [if_neg hpermneg]
    show updateTechniqueBody techs actor t (descPatch d) = _
    unfold updateTechniqueBody
    rw [if_neg (by simp [mitreDupOnUpdate, descPatch])]
    rw [hch]
    rfl
  · rw [haddr]
    rfl
  · rw [haddr]
    rfl
  · rfl
  · rfl
  · rfl
  · rw [haddr]
  · intro a b hab
    rw [haddr]
    show String.intercalate "." ((bumpParts (parseParts t.version)).map toString) = _
    rw [hab]
    rfl
  · intro a ha
    rw [haddr]
    show String.intercalate "." ((bumpParts (parseParts t.version)).map toString) = _
    rw [ha]
    rfl

def techC2 : Tech :=
  ⟨1, "Phishing", some "T1566", "old", some 1, none, none, [], [], [], ⟨"", []⟩,
    ⟨"", []⟩, [], [], [], [], true, "1.9", none, "Medium", .Draft, 10, none⟩

def demoEditor : UserM := ⟨10, Role.editor⟩

/-- C2 witness: updating only the description of a version-"1.9" technique
appends one revision entry and bumps the version to "1.10", not "2.0". -/
theorem C2_description_update_revision_witness :
    findTechById [techC2] 1 = some techC2 ∧ "new" ≠ techC2.description ∧
      ∃ t', updateTechnique [] [techC2] demoEditor 1 (descPatch "new") =
          .ok (t', updateTechStore [techC2] t') ∧
        t'.version = "1.10" ∧
        t'.revisionHistory = [⟨"1.10", "description: old → new", 10⟩] := by
  obtain ⟨t', hop, hrev, _, _, _, _, _, hab, _⟩ :=
    C2_description_update_revision [] [techC2] demoEditor 1 techC2 "new" rfl
      (Or.inr rfl) (by decide) (by decide)
  have hv110 : t'.version = "1.10" := by
    have h := hab 1 9 (by decide)
    rw [h]
    rfl
  refine ⟨rfl, by decide, t', hop, hv110, ?_⟩
  rw [hrev]
  rfl

/-! ## Claim C7 -/

def bodyNoCat : TechBody :=
  ⟨"Phishing", "deceptive mail", none, none, [], [], [], ⟨"", []⟩, ⟨"", []⟩, [], [], []⟩

def bodyWithCat : TechBody :=
  ⟨"Phishing", "deceptive mail", some 77, none, [], [], [], ⟨"", []⟩, ⟨"", []⟩, [], [], []⟩

def noFiles : Uploads := ⟨none, none⟩

/-- C7 counterexample: the claim says a create supplying name and
description but no category passes validation; the controller instead
requires the category and rejects this request with the missing-fields
validation error. -/
theorem C7_category_required_counterexample :
    createTechnique [] [] bodyNoCat noFiles 1 demoEditor = .error .missingFields := rfl

/-- C7 (amended): technique creation fails with the missing-fields
validation error exactly when name, description, or category is missing;
when all three are supplied, the category produces the category-not-found
error exactly when it does not resolve. -/
theorem C7_create_validation_amended (cats : List Cat) (techs : List Tech)
    (b : TechBody) (files : Uploads) (fid : Nat) (actor : UserM) :
    (createTechnique cats techs b files fid actor = .error .missingFields ↔
      b.name = "" ∨ b.description = "" ∨ b.category = none) ∧
    (∀ cid, b.category = some cid → b.name ≠ "" → b.description ≠ "" →
      (createTechnique cats techs b files fid actor = .error .categoryNotFound ↔
        findById cats cid = none)) := by
  by_cases hmf : b.name = "" ∨ b.description = "" ∨ b.category = none
  · constructor
    · rw [createTechnique, if_pos hmf]
      exact ⟨fun _ => hmf, fun _ => rfl⟩
    · intro cid hcid hn hdsc
      rcases hmf with h | h | h
      · exact absurd h hn
      · exact absurd h hdsc
      · rw [hcid] at h; cases h
  · have hkey : createTechnique cats techs b files fid actor =
        (match b.category with
          | none => Except.error CreateErr.missingFields
          | some cid =>
            if (findById cats cid).isNone then Except.error CreateErr.categoryNotFound
            else if mitreDup techs b.mitreid then Except.error CreateErr.duplicateMitreid
            else Except.ok (buildTechnique b files fid actor)) := by
      rw [createTechnique, if_neg hmf]
    cases hbc : b.category with
    | none => exact absurd (Or.inr (Or.inr hbc)) hmf
    | some cid =>
      rw [hbc] at hkey
      have hkey2 : createTechnique cats techs b files fid actor =
          (if (findById cats cid).isNone then Except.error CreateErr.categoryNotFound
           else if mitreDup techs b.mitreid then Except.error CreateErr.duplicateMitreid
           else Except.ok (buildTechnique b files fid actor)) := hkey
      constructor
      · rw [hkey2]
        constructor
        · intro h
          by_cases hfe : (findById cats cid).isNone
          · rw [if_pos hfe] at h; cases h
          · rw [if_neg hfe] at h
            by_cases hdup : mitreDup techs b.mitreid
            · rw [if_pos hdup] at h; cases h
            · rw [if_neg hdup] at h; cases h
        · intro h
          rcases h with h | h | h
          · exact absurd (Or.inl h) hmf
          · exact absurd (Or.inr (Or.inl h)) hmf
          · cases h
      · intro cid' hcid' _ _
        obtain rfl : cid = cid' := Option.some.inj hcid'
        rw [hkey2]
        by_cases hfe : (findById cats cid).isNone
        · rw [if_pos hfe]
          exact ⟨fun _ => Option.isNone_iff_eq_none.mp hfe, fun _ => rfl⟩
        · rw [if_neg hfe]
          constructor
          · intro h
            by_cases hdup : mitreDup techs b.mitreid
            · rw [if_pos hdup] at h; cases h
            · rw [if_neg hdup] at h; cases h
          · intro h
            rw [h] at hfe
            exact absurd rfl hfe

/-- C7 witness: with name and description present, a create without a
category is rejected as missing fields, and a create naming an unknown
category is rejected as category-not-found. -/
theorem C7_create_validation_amended_witness :
    createTechnique [] [] bodyNoCat noFiles 1 demoEditor = .error .missingFields ∧
      createTechnique [] [] bodyWithCat noFiles 1 demoEditor = .error .categoryNotFound := by
  refine ⟨?_, ?_⟩
  · exact (C7_create_validation_amended [] [] bodyNoCat noFiles 1 demoEditor).1.mpr
      (Or.inr (Or.inr rfl))
  · exact ((C7_create_validation_amended [] [] bodyWithCat noFiles 1 demoEditor).2 77 rfl
      (by decide) (by decide)).mpr rfl

/-! ## Claim C8 -/

/-- C8: a create request whose reference code is already used by another
(active) technique fails with the duplicate error, persists no technique,
and the `cleanupOnError` middleware deletes every blob this request
uploaded, so the blob store is exactly what it was before the request. -/
theorem C8_duplicate_mitreid_cleanup (cats : List Cat) (techs : List Tech)
    (blobs : List String) (b : TechBody) (uImg uDoc : Option String) (fid : Nat)
    (actor : UserM) (m : String) (t0 : Tech) (cid : Nat)
    (hn : b.name ≠ "") (hdsc : b.description ≠ "")
    (hcat : b.category = some cid) (hce : ∃ cc, findById cats cid = some cc)
    (hm : b.mitreid = some m) (hm0 : m ≠ "")
    (ht0 : t0 ∈ techs) (ht0m : t0.mitreid = some m) (_ht0a : t0.isActive = true)
    (hfresh : ∀ u ∈ uImg.toList ++ uDoc.toList, u ∉ blobs) :
    (createTechniqueRequest cats techs blobs b uImg uDoc fid actor).error =
        some CreateErr.duplicateMitreid ∧
      (createTechniqueRequest cats techs blobs b uImg uDoc fid actor).techs = techs ∧
      (createTechniqueRequest cats techs blobs b uImg uDoc fid actor).blobs = blobs := by
  have hctrl : createTechnique cats techs b ⟨uImg, uDoc⟩ fid actor =
      .error .duplicateMitreid := by
    rw [createTechnique,
      if_neg (by
        rintro (h | h | h)
        · exact hn h
        · exact hdsc h
        · rw [hcat] at h; cases h), hcat]
    show (if (findById cats cid).isNone then Except.error CreateErr.categoryNotFound
          else if mitreDup techs b.mitreid then Except.error CreateErr.duplicateMitreid
          else Except.ok (buildTechnique b ⟨uImg, uDoc⟩ fid actor)) = _
    obtain ⟨cc, hcc⟩ := hce
    rw [if_neg (by rw [hcc]; simp)]
    have hmd : mitreDup techs b.mitreid = true := by
      rw [hm]
      show ((m != "") && techs.any (fun t => t.mitreid == some m)) = true
      refine (Bool.and_eq_true _ _).mpr ⟨by simp [hm0], ?_⟩
      rw [List.any_eq_true]
      exact ⟨t0, ht0, by simp [ht0m]⟩
    rw [if_pos hmd]
  have h1 : blobs.filter (fun x => !((uImg.toList ++ uDoc.toList).contains x)) = blobs := by
    refine List.filter_eq_self.mpr ?_
    intro a ha
    have hnotup : a ∉ uImg.toList ++ uDoc.toList := fun hm => (hfresh a hm) ha
    simpa using hnotup
  have h2 : (uImg.toList ++ uDoc.toList).filter
      (fun x => !((uImg.toList ++ uDoc.toList).contains x)) = [] := by
    refine List.filter_eq_nil_iff.mpr ?_
    intro a ha
    simp [ha]
  have hfilter :
      ((blobs ++ (uImg.toList ++ uDoc.toList)).filter
        (fun x => !((uImg.toList ++ uDoc.toList).contains x))) = blobs := by
    rw [List.filter_append, h1, h2, List.append_nil]
  refine ⟨?_, ?_, ?_⟩
  · unfold createTechniqueRequest
    rw [hctrl]
  · unfold createTechniqueRequest
    rw [hctrl]
  · unfold createTechniqueRequest
    rw [hctrl]
    exact hfilter

def bodyC8 : TechBody :=
  ⟨"Spearphishing", "targeted mail", some 1, some "T1566", [], [], [], ⟨"", []⟩,
    ⟨"", []⟩, [], [], []⟩

/-- C8 witness: reusing the reference code of the stored active technique
fails with the duplicate error, stores nothing, and the uploaded image
blob of this request is removed again. -/
theorem C8_duplicate_mitreid_cleanup_witness :
    (createTechniqueRequest [catRoot] [demoTech] ["uploads/images/old.png"] bodyC8
        (some "uploads/images/new.png") none 5 demoEditor).error =
        some CreateErr.duplicateMitreid ∧
      (createTechniqueRequest [catRoot] [demoTech] ["uploads/images/old.png"] bodyC8
        (some "uploads/images/new.png") none 5 demoEditor).techs = [demoTech] ∧
      (createTechniqueRequest [catRoot] [demoTech] ["uploads/images/old.png"] bodyC8
        (some "uploads/images/new.png") none 5 demoEditor).blobs =
        ["uploads/images/old.png"] :=
  C8_duplicate_mitreid_cleanup [catRoot] [demoTech] ["uploads/images/old.png"] bodyC8
    (some "uploads/images/new.png") none 5 demoEditor "T1566" demoTech 1
    (by decide) (by decide) rfl ⟨catRoot, rfl⟩ rfl (by decide)
    (List.mem_singleton_self _) rfl rfl (by decide)

/-! ## Claim C9 -/

theorem saveUpdatedCat_ok_fields {s : List Cat} {old c1 c' : Cat} {s' : List Cat}
    (hop : saveUpdatedCat s old c1 = .ok (c', s')) :
    c'.name = c1.name ∧ c'.description = c1.description ∧ c'.color = c1.color ∧
      c'.icon = c1.icon ∧ c'.order = c1.order ∧ c'.metadata = c1.metadata ∧
      c'.isActive = c1.isActive ∧ c'.parentCategory = c1.parentCategory := by
  unfold saveUpdatedCat at hop
  obtain ⟨hc, _, _⟩ := saveCatCore_ok hop
  by_cases hname : c1.name ≠ old.name
  · rw [if_pos hname] at hc
    rw [hc]
    exact ⟨rfl, rfl, rfl, rfl, rfl, rfl, rfl, rfl⟩
  · rw [if_neg hname] at hc
    rw [hc]
    exact ⟨rfl, rfl, rfl, rfl, rfl, rfl, rfl, rfl⟩

theorem updateCategoryOp_ok_fields {s : List Cat} {actor : UserM} {cid : Nat}
    {p : CatPatch} {c' : Cat} {s' : List Cat}
    (hop : updateCategoryOp s actor cid p = .ok (c', s')) :
    ∃ c, findById s cid = some c ∧
      c'.name = (patchCat actor c p).name ∧
      c'.description = (patchCat actor c p).description ∧
      c'.color = (patchCat actor c p).color ∧
      c'.icon = (patchCat actor c p).icon ∧
      c'.order = (patchCat actor c p).order ∧
      c'.metadata = (patchCat actor c p).metadata ∧
      c'.isActive = (patchCat actor c p).isActive ∧
      (p.parentCategory = none → c'.parentCategory = c.parentCategory) ∧
      (∀ pc, p.parentCategory = some pc → c'.parentCategory = pc) := by
  unfold updateCategoryOp at hop
  cases hfind : findById s cid with
  | none => rw [hfind] at hop; exact absurd hop (by simp)
  | some c =>
    rw [hfind] at hop
    refine ⟨c, rfl, ?_⟩
    have hop2 :
        (if actor.role ≠ Role.admin ∧ c.createdBy ≠ actor.id then
          (Except.error CatErr.permission : Except CatErr (Cat × List Cat))
         else
          match p.parentCategory with
          | none => saveUpdatedCat s c (patchCat actor c p)
          | some none => saveUpdatedCat s c { patchCat actor c p with parentCategory := none }
          | some (some pid) =>
            if (findById s pid).isNone then Except.error CatErr.parentNotFound
            else saveUpdatedCat s c { patchCat actor c p with parentCategory := some pid }) =
          Except.ok (c', s') := hop
    by_cases hperm : actor.role ≠ Role.admin ∧ c.createdBy ≠ actor.id
    · rw [if_pos hperm] at hop2
      exact absurd hop2 (by simp)
    · rw [if_neg hperm] at hop2
      cases hpp : p.parentCategory with
      | none =>
        rw [hpp] at hop2
        obtain ⟨h1, h2, h3, h4, h5, h6, h7, h8⟩ := saveUpdatedCat_ok_fields hop2
        refine ⟨h1, h2, h3, h4, h5, h6, h7, ?_, ?_⟩
        · intro _
          rw [h8]
          simp [patchCat]
        · intro pc hpc
          cases hpc
      | some newPar =>
        have hfinish :
            ∀ c1x : Cat, c1x.name = (patchCat actor c p).name →
              c1x.description = (patchCat actor c p).description →
              c1x.color = (patchCat actor c p).color →
              c1x.icon = (patchCat actor c p).icon →
              c1x.order = (patchCat actor c p).order →
              c1x.metadata = (patchCat actor c p).metadata →
              c1x.isActive = (patchCat actor c p).isActive →
              c1x.parentCategory = newPar →
              saveUpdatedCat s c c1x = Except.ok (c', s') →
              c'.name = (patchCat actor c p).name ∧
                c'.description = (patchCat actor c p).description ∧
                c'.color = (patchCat actor c p).color ∧
                c'.icon = (patchCat actor c p).icon ∧
                c'.order = (patchCat actor c p).order ∧
                c'.metadata = (patchCat actor c p).metadata ∧
                c'.isActive = (patchCat actor c p).isActive ∧
                ((some newPar : Option (Option Nat)) = none →
                  c'.parentCategory = c.parentCategory) ∧
                (∀ pc, (some newPar : Option (Option Nat)) = some pc →
                  c'.parentCategory = pc) := by
          intro c1x e1 e2 e3 e4 e5 e6 e7 e8 hopx
          obtain ⟨h1, h2, h3, h4, h5, h6, h7, h8⟩ := saveUpdatedCat_ok_fields hopx
          refine ⟨h1.trans e1, h2.trans e2, h3.trans e3, h4.trans e4, h5.trans e5,
            h6.trans e6, h7.trans e7, ?_, ?_⟩
          · intro habs
            cases habs
          · intro pc hpc
            obtain rfl : newPar = pc := Option.some.inj hpc
            exact h8.trans e8
        cases newPar with
        | none =>
          rw [hpp] at hop2
          exact hfinish { patchCat actor c p with parentCategory := none }
            rfl rfl rfl rfl rfl rfl rfl rfl hop2
        | some pid =>
          rw [hpp] at hop2
          have hop3 :
              (if (findById s pid).isNone then (Except.error CatErr.parentNotFound :
                  Except CatErr (Cat × List Cat))
               else saveUpdatedCat s c { patchCat actor c p with parentCategory := some pid }) =
                Except.ok (c', s') := hop2
          by_cases hpe : (findById s pid).isNone
          · rw [if_pos hpe] at hop3
            exact absurd hop3 (by simp)
          · rw [if_neg hpe] at hop3
            exact hfinish { patchCat actor c p with parentCategory := some pid }
              rfl rfl rfl rfl rfl rfl rfl rfl hop3

/-- C9: for a non-admin actor who owns the category, a patch containing
`isActive` leaves the stored flag unchanged while every other supplied
field is applied, and only a patch executed by an admin sets `isActive`. -/
theorem C9_isActive_admin_only (s : List Cat) (actor : UserM) (cid : Nat)
    (p : CatPatch) (c c' : Cat) (s' : List Cat)
    (hfind : findById s cid = some c)
    (hrole : actor.role ≠ Role.admin)
    (hop : updateCategoryOp s actor cid p = .ok (c', s')) :
    c'.isActive = c.isActive ∧
      (∀ nm, p.name = some nm → c'.name = jsTrim nm) ∧
      (∀ dsc, p.description = some dsc → c'.description = jsTrim dsc) ∧
      (∀ col, p.color = some col → c'.color = col) ∧
      (∀ ic, p.icon = some ic → c'.icon = ic) ∧
      (∀ od, p.order = some od → c'.order = od) ∧
      (∀ mp, p.metadata = some mp → c'.metadata = mergeMeta c.metadata mp) ∧
      (∀ pc, p.parentCategory = some pc → c'.parentCategory = pc) ∧
      (∀ (a2 : UserM) (c2 : Cat) (s2 : List Cat) (b : Bool), a2.role = Role.admin →
        p.isActive = some b →
        updateCategoryOp s a2 cid p = .ok (c2, s2) → c2.isActive = b) := by
  obtain ⟨c0, hfind0, h1, h2, h3, h4, h5, h6, h7, _, h9⟩ := updateCategoryOp_ok_fields hop
  obtain rfl : c0 = c := by
    rw [hfind] at hfind0
    exact (Option.some.inj hfind0).symm
  refine ⟨?_, ?_, ?_, ?_, ?_, ?_, ?_, h9, ?_⟩
  · rw [h7]
    simp [patchCat, hrole]
  · intro nm hnm
    rw [h1]
    simp [patchCat, hnm]
  · intro dsc hdsc
    rw [h2]
    simp [patchCat, hdsc]
  · intro col hcol
    rw [h3]
    simp [patchCat, hcol]
  · intro ic hic
    rw [h4]
    simp [patchCat, hic]
  · intro od hod
    rw [h5]
    simp [patchCat, hod]
  · intro mp hmp
    rw [h6]
    simp [patchCat, hmp]
  · intro a2 c2 s2 b hadm hb hop2
    obtain ⟨c3, _, _, _, _, _, _, _, h7b, _, _⟩ := updateCategoryOp_ok_fields hop2
    rw [h7b]
    simp [patchCat, hadm, hb]

def patchC9 : CatPatch :=
  ⟨none, none, some "#ffffff", none, none, none, none, some false⟩

def catRootC9 : Cat :=
  ⟨1, "Initial Access", "initial-access", "root category", "#ffffff", "folder",
    none, 0, true, demoMeta, 10⟩

/-- C9 witness: the creator (an editor) patches color and `isActive`; the
color is applied while `isActive` stays true. -/
theorem C9_isActive_admin_only_witness :
    updateCategoryOp [catRoot] demoEditor 1 patchC9 = .ok (catRootC9, [catRootC9]) ∧
      catRootC9.isActive = catRoot.isActive ∧ catRootC9.color = "#ffffff" := by
  have hop : updateCategoryOp [catRoot] demoEditor 1 patchC9 =
      .ok (catRootC9, [catRootC9]) := rfl
  have h := C9_isActive_admin_only [catRoot] demoEditor 1 patchC9 catRoot catRootC9
    [catRootC9] rfl (by decide) hop
  exact ⟨hop, h.1, h.2.2.2.1 "#ffffff" rfl⟩

/-! ## Claim C10 -/

/-- C10: an active category whose parent reference names an inactive or
absent category appears nowhere in the forest `getHierarchy` returns: it
is not a root because it has a parent, and no children list contains it
because its parent is not a key of the active-category map. -/
theorem C10_hierarchy_omits_orphans (s : List Cat) (c : Cat) (q : Nat)
    (hN : (ids s).Nodup)
    (hc : c ∈ s)
    (ha : c.isActive = true)
    (hp : c.parentCategory = some q)
    (hq : ∀ d ∈ s, d.id = q → d.isActive = false) :
    ¬ appearsInHierarchy s c.id := by
  have hinj : ∀ a ∈ s, ∀ b ∈ s, a.id = b.id → a = b := fun a hmem b hmemb heq =>
    List.inj_on_of_nodup_map hN hmem hmemb heq
  have hmemAct : ∀ d, d ∈ hierActives s ↔ d ∈ s ∧ d.isActive = true := by
    intro d
    rw [hierActives, List.mem_mergeSort, List.mem_filter]
  rintro (hroot | ⟨pp, hpp, hchild⟩)
  · rw [hierRoots] at hroot
    obtain ⟨d, hd, hdid⟩ := List.mem_map.mp hroot
    obtain ⟨hdmem, hdroot⟩ := List.mem_filter.mp hd
    obtain ⟨hdins, _⟩ := (hmemAct d).mp hdmem
    obtain rfl : d = c := hinj d hdins c hc hdid
    rw [hp] at hdroot
    cases hdroot
  · rw [hierChildren] at hchild
    obtain ⟨d, hd, hdid⟩ := List.mem_map.mp hchild
    obtain ⟨hdmem, hdpar⟩ := List.mem_filter.mp hd
    obtain ⟨hdins, _⟩ := (hmemAct d).mp hdmem
    obtain rfl : d = c := hinj d hdins c hc hdid
    have hppq : pp = q := by
      rw [hp] at hdpar
      exact (Option.some.inj (eq_of_beq hdpar)).symm
    rw [activeIds] at hpp
    obtain ⟨e, he, heid⟩ := List.mem_map.mp hpp
    obtain ⟨heins, heact⟩ := (hmemAct e).mp he
    have := hq e heins (by rw [heid, hppq])
    rw [heact] at this
    cases this

def hierParent : Cat :=
  ⟨1, "Old Root", "old-root", "disabled parent", "#3498db", "folder",
    none, 0, false, demoMeta, 10⟩

def hierOrphan : Cat :=
  ⟨2, "Orphan", "orphan", "active child of a disabled parent", "#3498db", "folder",
    some 1, 0, true, demoMeta, 10⟩

/-- C10 witness: the active category whose parent is inactive appears
neither among the roots nor in any children list of the returned forest. -/
theorem C10_hierarchy_omits_orphans_witness :
    hierOrphan ∈ [hierParent, hierOrphan] ∧ hierOrphan.isActive = true ∧
      ¬ appearsInHierarchy [hierParent, hierOrphan] hierOrphan.id := by
  refine ⟨by decide, rfl, ?_⟩
  exact C10_hierarchy_omits_orphans [hierParent, hierOrphan] hierOrphan 1
    (by decide) (by decide) rfl rfl
    (by intro d hd hdid
        rcases List.mem_cons.mp hd with rfl | hd2
        · rfl
        · rcases List.mem_cons.mp hd2 with rfl | hd3
          · cases hdid
          · cases hd3)

end Leterago
